import Mathlib

/-!
# The OpenCog class server: type registration, closure maintenance, factory lookup

A shallow embedding of `opencog/atoms/base/ClassServer.cc`.

* A type code (`Type` in the source, a 16-bit unsigned integer) is a natural
  number, and the increment `nTypes++` wraps at 16 bits; the result of a name
  lookup is an `Option Nat`, `none` standing for `NOTYPE`.
* `std::vector<std::vector<bool>>` is a list of lists of booleans.  Every index
  expression `m[i][j]` of the source is an unchecked vector access; here each
  one is checked, and an access outside the vector is the fault
  `Fault.outOfRange`, which records the registry as it was at that access.
* `setParentRecursively` is recursive without a bound in the source; here it
  takes a recursion budget (`fuel`), and running out of it is `Fault.outOfFuel`.
* The signal emitted by `addType` is returned as a list of emissions, each with
  the registry an observer sees at that moment.
-/

namespace OpenCog

/-- The two matrices of the class server, `std::vector<std::vector<bool>>`. -/
abbrev BitMatrix := List (List Bool)

/-- The effect of `std::vector::resize(n, fill)`: keep the first `n` elements,
pad with `fill` up to length `n`. -/
def resize {α : Type} (v : List α) (n : Nat) (fill : α) : List α :=
  v.take n ++ List.replicate (n - v.length) fill

namespace BitMatrix

/-- The read `m[i][j]`; `none` when `i` or `j` is outside the vectors. -/
def entry (m : BitMatrix) (i j : Nat) : Option Bool :=
  match m[i]? with
  | none => none
  | some row => row[j]?

/-- The write `m[i][j] = b`; `none` when `i` or `j` is outside the vectors. -/
def assign (m : BitMatrix) (i j : Nat) (b : Bool) : Option BitMatrix :=
  match m[i]? with
  | none => none
  | some row => if j < row.length then some (m.set i (row.set j b)) else none

/-- The two resizing statements of `addType`: `m.resize(n)` followed by
`resize(n, false)` on every row. -/
def grow (m : BitMatrix) (n : Nat) : BitMatrix :=
  (resize m n []).map (fun row => resize row n false)

end BitMatrix

/-- Lookup in a `std::map` / `std::unordered_map` kept as a list of pairs. -/
def mapFind {κ ν : Type} [DecidableEq κ] (m : List (κ × ν)) (k : κ) : Option ν :=
  match m with
  | [] => none
  | (k', v) :: rest => if k' = k then some v else mapFind rest k

/-- The statement `m[k] = v` on a map: insert, or overwrite the value of `k`. -/
def mapAssign {κ ν : Type} [DecidableEq κ] (m : List (κ × ν)) (k : κ) (v : ν) :
    List (κ × ν) :=
  (k, v) :: m.filter (fun e => decide (e.1 ≠ k))

/-- An atom factory is identified by a number (the address of the function). -/
abbrev AtomFactory := Nat

/-- The data members of `ClassServer` that `ClassServer.cc` uses. A factory
pointer is an `Option`, `none` being `nullptr`. -/
structure ClassServer where
  nTypes : Nat
  inheritanceMap : BitMatrix
  recursiveMap : BitMatrix
  name2CodeMap : List (String × Nat)
  code2NameMap : List (Nat × String)
  _atomFactory : List (Nat × Option AtomFactory)
  deriving DecidableEq, Repr

/-- How a call can fail to return: the recursion budget ran out, or a vector
was indexed outside its bounds (undefined behaviour in the source), with the
registry as it was at that access. -/
inductive Fault where
  | outOfFuel
  | outOfRange (reached : ClassServer)
  deriving DecidableEq, Repr

/-- What a returning `addType` call produces: the returned code, the registry
after the call, and the emissions of the add-type signal, each with the
registry it was emitted on. -/
structure AddTypeResult where
  code : Nat
  server : ClassServer
  signals : List (Nat × ClassServer)
  deriving DecidableEq, Repr

/-- A `for` loop over the indices `is` threading the registry, stopping at the
first fault. -/
def forEachM {σ : Type} (body : Nat → σ → Except Fault σ) : List Nat → σ → Except Fault σ
  | [], s => .ok s
  | i :: rest, s =>
    match body i s with
    | .error e => .error e
    | .ok s' => forEachM body rest s'

namespace ClassServer

/-- The constructor `ClassServer::ClassServer`: `nTypes = 0`, empty containers. -/
def init : ClassServer :=
  { nTypes := 0, inheritanceMap := [], recursiveMap := [], name2CodeMap := [],
    code2NameMap := [], _atomFactory := [] }

/-- `ClassServer::getNumberOfClasses`. -/
def getNumberOfClasses (s : ClassServer) : Nat := s.nTypes

/-- `ClassServer::isDefined`. -/
def isDefined (s : ClassServer) (typeName : String) : Bool :=
  (mapFind s.name2CodeMap typeName).isSome

/-- `ClassServer::getType`; `none` is `NOTYPE`. -/
def getType (s : ClassServer) (typeName : String) : Option Nat :=
  mapFind s.name2CodeMap typeName

/-- `ClassServer::getTypeName`. -/
def getTypeName (s : ClassServer) (type : Nat) : String :=
  match mapFind s.code2NameMap type with
  | some name => name
  | none => "*** Unknown Type! ***"

/-- `ClassServer::isA_non_recursive`. -/
def isA_non_recursive (s : ClassServer) (type parent : Nat) : Option Bool :=
  if type ≥ s.nTypes ∨ parent ≥ s.nTypes then some false
  else s.inheritanceMap.entry parent type

/-- Modelled from the spec: `isDescendant(ancestor, descendant)`, the ancestry
query of the class server, whose code is in the header and not in
`ClassServer.cc`. It returns the entry of the transitive-closure matrix, and
false when either code is outside the registered range. -/
def isDescendant (s : ClassServer) (ancestor descendant : Nat) : Option Bool :=
  if descendant ≥ s.nTypes ∨ ancestor ≥ s.nTypes then some false
  else s.recursiveMap.entry ancestor descendant

/-- The statement `inheritanceMap[i][j] = true`. -/
def setInheritance (i j : Nat) (s : ClassServer) : Except Fault ClassServer :=
  match s.inheritanceMap.assign i j true with
  | none => .error (.outOfRange s)
  | some m => .ok { s with inheritanceMap := m }

/-- The statement `recursiveMap[i][j] = true`. -/
def setRecursive (i j : Nat) (s : ClassServer) : Except Fault ClassServer :=
  match s.recursiveMap.assign i j true with
  | none => .error (.outOfRange s)
  | some m => .ok { s with recursiveMap := m }

/-- `ClassServer::setParentRecursively`, with a recursion budget. -/
def setParentRecursively : Nat → Nat → Nat → ClassServer → Except Fault ClassServer
  | 0, _, _, _ => .error .outOfFuel
  | fuel + 1, parent, type, s =>
    match setRecursive parent type s with
    | .error e => .error e
    | .ok s1 =>
      forEachM
        (fun i st =>
          match st.recursiveMap.entry i parent with
          | none => .error (.outOfRange st)
          | some b =>
            if b && decide (i ≠ parent) then setParentRecursively fuel i type st
            else .ok st)
        (List.range s1.nTypes) s1

/-- Modelled from the spec: `NOTYPE`, the value that means no such type. `Type`
and `NOTYPE` are declared in the header `types.h`, not in `ClassServer.cc`:
`Type` is a 16-bit unsigned integer and `NOTYPE` is its largest value. -/
def NOTYPE : Nat := 65535

/-- The part of `addType` that allocates a code: `type = nTypes++`, an increment
of the 16-bit counter that wraps from `NOTYPE` to 0, and the resizing of both
matrices to the new `nTypes`. -/
def allocate (s : ClassServer) : ClassServer :=
  { s with
    nTypes := (s.nTypes + 1) % (NOTYPE + 1)
    inheritanceMap := s.inheritanceMap.grow ((s.nTypes + 1) % (NOTYPE + 1))
    recursiveMap := s.recursiveMap.grow ((s.nTypes + 1) % (NOTYPE + 1)) }

/-- The registry `allocate` produces when the counter does not wrap: one more
code, both matrices one row and one column larger. -/
def grown (s : ClassServer) : ClassServer :=
  { s with
    nTypes := s.nTypes + 1
    inheritanceMap := s.inheritanceMap.grow (s.nTypes + 1)
    recursiveMap := s.recursiveMap.grow (s.nTypes + 1) }

/-- The two table writes of `addType`: `name2CodeMap[name] = type` and
`code2NameMap[type] = &name`. -/
def recordName (name : String) (type : Nat) (s : ClassServer) : ClassServer :=
  { s with
    name2CodeMap := mapAssign s.name2CodeMap name type
    code2NameMap := mapAssign s.code2NameMap type name }

/-- `ClassServer::addType`. -/
def addType (fuel : Nat) (parent : Nat) (name : String) (s : ClassServer) :
    Except Fault AddTypeResult :=
  match getType s name with
  | some type =>
    match setInheritance parent type s with
    | .error e => .error e
    | .ok s1 =>
      match setParentRecursively fuel parent type s1 with
      | .error e => .error e
      | .ok s2 => .ok { code := type, server := s2, signals := [] }
  | none =>
    let type := s.nTypes
    match setInheritance type type (allocate s) with
    | .error e => .error e
    | .ok s1 =>
      match setInheritance parent type s1 with
      | .error e => .error e
      | .ok s2 =>
        match setRecursive type type s2 with
        | .error e => .error e
        | .ok s3 =>
          match setParentRecursively fuel parent type s3 with
          | .error e => .error e
          | .ok s4 =>
            let s5 := recordName name type s4
            .ok { code := type, server := s5, signals := [(type, s5)] }

/-- `ClassServer::addFactory`. -/
def addFactory (t : Nat) (fact : Option AtomFactory) (s : ClassServer) : ClassServer :=
  { s with _atomFactory := mapAssign s._atomFactory t fact }

/-- Modelled from the spec: `getParents(type, out)`, declared in the header and
not in `ClassServer.cc`. It writes to the output iterator the direct parents of
`type`: the codes `i` other than `type` whose inheritance-matrix entry
`(i, type)` is true. -/
def getParents (s : ClassServer) (type : Nat) : List Nat :=
  (List.range s.nTypes).filter
    (fun i => s.inheritanceMap.entry i type == some true && decide (type ≠ i))

/-- Writing the values `xs` through an iterator into the vector `v`, starting at
position `pos`: every write must fall on an existing element of `v`. -/
def writeThrough (v : List Nat) (pos : Nat) : List Nat → Option (List Nat)
  | [] => some v
  | x :: xs => if pos < v.length then writeThrough (v.set pos x) (pos + 1) xs else none

/-- The constant `MAX_DEPTH` of `getFactory`. -/
def MAX_DEPTH : Nat := 100

/-- The loop `for (auto p : parents)` of `getFactory`: the first non-null
factory among the parents. -/
def firstFactory (recurse : Nat → Except Fault (Option AtomFactory)) :
    List Nat → Except Fault (Option AtomFactory)
  | [] => .ok none
  | p :: rest =>
    match recurse p with
    | .error e => .error e
    | .ok (some fact) => .ok (some fact)
    | .ok none => firstFactory recurse rest

/-- The loop over `search_depth` of `getFactory`, with `count` iterations left:
`level` runs the body of one iteration after the depth test and yields the
factory found in it, if any. -/
def searchLevels (level : Except Fault (Option AtomFactory)) (depth : Int) :
    Nat → Nat → Except Fault (Option AtomFactory)
  | 0, _ => .ok none
  | count + 1, search_depth =>
    if depth > (search_depth : Int) then .ok none
    else
      match level with
      | .error e => .error e
      | .ok (some fact) => .ok (some fact)
      | .ok none => searchLevels level depth count (search_depth + 1)

/-- `ClassServer::getFactory(t, depth)`, with a recursion budget. The vector
`parents` is empty when `getParents` writes through `parents.begin()`. -/
def getFactory : Nat → ClassServer → Nat → Int → Except Fault (Option AtomFactory)
  | 0, _, _, _ => .error .outOfFuel
  | fuel + 1, s, t, depth =>
    match mapFind s._atomFactory t with
    | some fact => .ok fact
    | none =>
      let depth := depth + 1
      searchLevels
        (match writeThrough [] 0 (getParents s t) with
          | none => .error (.outOfRange s)
          | some parents => firstFactory (fun p => getFactory fuel s p depth) parents)
        depth (MAX_DEPTH - 1) 1

end ClassServer

/-! ## Predicates on registries -/

namespace BitMatrix

/-- A matrix with `n` rows, each of length `n`. -/
def Square (m : BitMatrix) (n : Nat) : Prop :=
  m.length = n ∧ ∀ row ∈ m, row.length = n

end BitMatrix

/-- In the closure matrix of `s`, `i` is recorded as an ancestor of `j`, and
`i` is not `j`: the test of the loop in `setParentRecursively`. -/
def ClassServer.Anc (s : ClassServer) (i j : Nat) : Prop :=
  s.recursiveMap.entry i j = some true ∧ i ≠ j

instance ClassServer.decidableAnc (s : ClassServer) (i j : Nat) : Decidable (s.Anc i j) :=
  inferInstanceAs (Decidable (s.recursiveMap.entry i j = some true ∧ i ≠ j))

/-- The registry `s'` is `s` with some false entries of column `c` of the closure
matrix turned to true, and nothing else changed. -/
structure Ext (c : Nat) (s s' : ClassServer) : Prop where
  rest : s' = { s with recursiveMap := s'.recursiveMap }
  square : ∀ n, s.recursiveMap.Square n → s'.recursiveMap.Square n
  entry : ∀ a b, s'.recursiveMap.entry a b = s.recursiveMap.entry a b ∨
    (b = c ∧ s.recursiveMap.entry a b = some false ∧ s'.recursiveMap.entry a b = some true)

/-- The class invariant of the registry: both matrices are `nTypes` by `nTypes`,
the closure matrix has no cycle of ancestor links, the diagonals are set, every
registered name has a code below `nTypes`, there are as many names as codes,
and the count is a 16-bit value other than the wrapped one. -/
structure Inv (s : ClassServer) : Prop where
  sqInh : s.inheritanceMap.Square s.nTypes
  sqRec : s.recursiveMap.Square s.nTypes
  acyclic : ∀ q, Acc s.Anc q
  reflRec : ∀ t, t < s.nTypes → s.recursiveMap.entry t t = some true
  reflInh : ∀ t, t < s.nTypes → s.inheritanceMap.entry t t = some true
  codes : ∀ name c, s.getType name = some c → c < s.nTypes
  namesNodup : (s.name2CodeMap.map Prod.fst).Nodup
  namesLength : s.name2CodeMap.length = s.nTypes
  bound : s.nTypes ≤ ClassServer.NOTYPE

/-- The registries that the operations of the class server produce from the
freshly constructed one: every returning `addType` call and every `addFactory`
call leads from a reachable registry to a reachable registry. -/
inductive Reachable : ClassServer → Prop
  | init : Reachable ClassServer.init
  | addType {s : ClassServer} {fuel parent : Nat} {name : String} {r : AddTypeResult} :
      Reachable s → ClassServer.addType fuel parent name s = .ok r → Reachable r.server
  | addFactory {s : ClassServer} (t : Nat) (fact : Option AtomFactory) :
      Reachable s → Reachable (ClassServer.addFactory t fact s)

/-- The registry `s3` on which `addType(P, name)` runs `setParentRecursively` when
`name` is new: `s` with one more code `s.nTypes`, both matrices one row and one
column larger, the new diagonal entries set, and the new type recorded under `P`
in the inheritance matrix. -/
structure NewPre (s : ClassServer) (P : Nat) (s3 : ClassServer) : Prop where
  room : s.nTypes < ClassServer.NOTYPE
  parent : P ≤ s.nTypes
  nTypes : s3.nTypes = s.nTypes + 1
  name2CodeMap : s3.name2CodeMap = s.name2CodeMap
  code2NameMap : s3.code2NameMap = s.code2NameMap
  atomFactory : s3._atomFactory = s._atomFactory
  sqInh : s3.inheritanceMap.Square (s.nTypes + 1)
  sqRec : s3.recursiveMap.Square (s.nTypes + 1)
  recEntry : ∀ a b, s3.recursiveMap.entry a b =
    if a = s.nTypes ∧ b = s.nTypes then some true
    else if a < s.nTypes ∧ b < s.nTypes then s.recursiveMap.entry a b
    else if a < s.nTypes + 1 ∧ b < s.nTypes + 1 then some false else none
  inhEntry : ∀ a b, s3.inheritanceMap.entry a b =
    if (a = P ∨ a = s.nTypes) ∧ b = s.nTypes then some true
    else if a < s.nTypes ∧ b < s.nTypes then s.inheritanceMap.entry a b
    else if a < s.nTypes + 1 ∧ b < s.nTypes + 1 then some false else none

/-- What a returning `addType(P, name)` has done when `name` was not registered:
the next code is allocated, named, signalled once, and marked in the closure
matrix under itself and under every type above `P`. -/
structure NewPost (s : ClassServer) (P : Nat) (name : String) (r : AddTypeResult) : Prop where
  room : s.nTypes < ClassServer.NOTYPE
  parent : P ≤ s.nTypes
  code : r.code = s.nTypes
  signals : r.signals = [(s.nTypes, r.server)]
  nTypes : r.server.nTypes = s.nTypes + 1
  name2CodeMap : r.server.name2CodeMap = mapAssign s.name2CodeMap name s.nTypes
  code2NameMap : r.server.code2NameMap = mapAssign s.code2NameMap s.nTypes name
  atomFactory : r.server._atomFactory = s._atomFactory
  recEntry : ∀ a b, r.server.recursiveMap.entry a b = some true ↔
    s.recursiveMap.entry a b = some true ∨
      (b = s.nTypes ∧ (a = s.nTypes ∨ Relation.ReflTransGen s.Anc a P))
  inhEntry : ∀ a b, r.server.inheritanceMap.entry a b = some true ↔
    s.inheritanceMap.entry a b = some true ∨ (b = s.nTypes ∧ (a = s.nTypes ∨ a = P))
  again : ∀ t : ClassServer, t.recursiveMap = r.server.recursiveMap →
    t.nTypes = r.server.nTypes →
    ∃ F, ∀ f, F ≤ f → ClassServer.setParentRecursively f P r.code t = .ok t
  inv : Inv r.server

/-- What a returning `addType(P, name)` has done when `name` was registered with
code `c`: `c` is recorded under `P` in the inheritance matrix and marked in the
closure matrix under every type above `P`; nothing else changes. -/
structure LinkPost (s : ClassServer) (P c : Nat) (r : AddTypeResult) : Prop where
  parent : P < s.nTypes
  noCycle : ¬ Relation.TransGen s.Anc c P
  code : r.code = c
  signals : r.signals = []
  rest : r.server =
    { s with inheritanceMap := r.server.inheritanceMap, recursiveMap := r.server.recursiveMap }
  recEntry : ∀ a b, r.server.recursiveMap.entry a b = some true ↔
    s.recursiveMap.entry a b = some true ∨ (b = c ∧ Relation.ReflTransGen s.Anc a P)
  inhEntry : ∀ a b, r.server.inheritanceMap.entry a b = some true ↔
    s.inheritanceMap.entry a b = some true ∨ (a = P ∧ b = c)
  again : ∀ t : ClassServer, t.recursiveMap = r.server.recursiveMap →
    t.nTypes = r.server.nTypes →
    ∃ F, ∀ f, F ≤ f → ClassServer.setParentRecursively f P r.code t = .ok t
  inv : Inv r.server

/-! ## Concrete registries -/

/-- The bootstrap feed of the class server: the `addType` calls of the list, in
order, each on the registry the previous one returned. -/
def bootstrap (fuel : Nat) : List (Nat × String) → ClassServer → Except Fault ClassServer
  | [], s => .ok s
  | (parent, name) :: rest, s =>
    match ClassServer.addType fuel parent name s with
    | .error e => .error e
    | .ok r => bootstrap fuel rest r.server

/-- The registry after Root, then A and B under Root, then C under B. -/
def beforeLink : ClassServer :=
  { nTypes := 4
    inheritanceMap := [[true, true, true, false], [false, true, false, false],
      [false, false, true, true], [false, false, false, true]]
    recursiveMap := [[true, true, true, true], [false, true, false, false],
      [false, false, true, true], [false, false, false, true]]
    name2CodeMap := [("C", 3), ("B", 2), ("A", 1), ("Root", 0)]
    code2NameMap := [(3, "C"), (2, "B"), (1, "A"), (0, "Root")]
    _atomFactory := [] }

/-- The registry `beforeLink` after the further call `addType(A, "B")`. -/
def afterLink : ClassServer :=
  { beforeLink with
    inheritanceMap := [[true, true, true, false], [false, true, true, false],
      [false, false, true, true], [false, false, false, true]]
    recursiveMap := [[true, true, true, true], [false, true, true, false],
      [false, false, true, true], [false, false, false, true]] }

/-- The registry after A registered as a root and B under A. -/
def twoTypes : ClassServer :=
  { nTypes := 2
    inheritanceMap := [[true, true], [false, true]]
    recursiveMap := [[true, true], [false, true]]
    name2CodeMap := [("B", 1), ("A", 0)]
    code2NameMap := [(1, "B"), (0, "A")]
    _atomFactory := [] }

/-- The registry after Root, then A and B under Root, then Hybrid under A. -/
def hybridUnderA : ClassServer :=
  { nTypes := 4
    inheritanceMap := [[true, true, true, false], [false, true, false, true],
      [false, false, true, false], [false, false, false, true]]
    recursiveMap := [[true, true, true, true], [false, true, false, true],
      [false, false, true, false], [false, false, false, true]]
    name2CodeMap := [("Hybrid", 3), ("B", 2), ("A", 1), ("Root", 0)]
    code2NameMap := [(3, "Hybrid"), (2, "B"), (1, "A"), (0, "Root")]
    _atomFactory := [] }

/-- The registry after Root and Child under Root. -/
def rootChild : ClassServer :=
  { nTypes := 2
    inheritanceMap := [[true, true], [false, true]]
    recursiveMap := [[true, true], [false, true]]
    name2CodeMap := [("Child", 1), ("Root", 0)]
    code2NameMap := [(1, "Child"), (0, "Root")]
    _atomFactory := [] }

/-- The registry after Root, Mid under Root and Leaf under Mid, with factory 10
registered for Root and factory 11 for Mid. -/
def chainWithHooks : ClassServer :=
  { nTypes := 3
    inheritanceMap := [[true, true, false], [false, true, true], [false, false, true]]
    recursiveMap := [[true, true, true], [false, true, true], [false, false, true]]
    name2CodeMap := [("Leaf", 2), ("Mid", 1), ("Root", 0)]
    code2NameMap := [(2, "Leaf"), (1, "Mid"), (0, "Root")]
    _atomFactory := [(1, some 11), (0, some 10)] }

/-- The two name tables agree: a name has code `c` exactly when `c` has that
name, and every code below `nTypes` has a name. -/
structure NameTables (s : ClassServer) : Prop where
  pair : ∀ n c, mapFind s.name2CodeMap n = some c ↔ mapFind s.code2NameMap c = some n
  named : ∀ c, c < s.nTypes → ∃ n, mapFind s.code2NameMap c = some n

/-- The registries reached from the freshly constructed one, together with the
names that the returning `addType` calls on the way were given. -/
inductive Registered : ClassServer → List String → Prop
  | init : Registered ClassServer.init []
  | addType {s : ClassServer} {names : List String} {fuel parent : Nat} {name : String}
      {r : AddTypeResult} :
      Registered s names → ClassServer.addType fuel parent name s = .ok r →
      Registered r.server (name :: names)
  | addFactory {s : ClassServer} {names : List String} (t : Nat) (fact : Option AtomFactory) :
      Registered s names → Registered (ClassServer.addFactory t fact s) names

/-- The registry after Root, Child under Root and GrandChild under Child. -/
def grandChain : ClassServer :=
  { nTypes := 3
    inheritanceMap := [[true, true, false], [false, true, true], [false, false, true]]
    recursiveMap := [[true, true, true], [false, true, true], [false, false, true]]
    name2CodeMap := [("GrandChild", 2), ("Child", 1), ("Root", 0)]
    code2NameMap := [(2, "GrandChild"), (1, "Child"), (0, "Root")]
    _atomFactory := [] }

/-- The registry after Root alone, registered as its own parent. -/
def rootOnly : ClassServer :=
  { nTypes := 1
    inheritanceMap := [[true]]
    recursiveMap := [[true]]
    name2CodeMap := [("Root", 0)]
    code2NameMap := [(0, "Root")]
    _atomFactory := [] }

end OpenCog

/-! # Theorems -/

namespace OpenCog

/-! ## Vectors and matrices -/

theorem set_of_getElem? {α : Type} {l : List α} {i : Nat} {x : α} (h : l[i]? = some x) :
    l.set i x = l := by
  apply List.ext_getElem?
  intro j
  rw [List.getElem?_set]
  split
  · rename_i hij
    subst hij
    rcases List.getElem?_eq_some.1 h with ⟨hi, _⟩
    simp [hi, h]
  · rfl

namespace BitMatrix

theorem entry_assign {m m' : BitMatrix} {i j : Nat} {b : Bool}
    (h : assign m i j b = some m') (a c : Nat) :
    entry m' a c = if a = i ∧ c = j then some b else entry m a c := by
  unfold assign at h
  cases hrow : m[i]? with
  | none => simp [hrow] at h
  | some row =>
    simp only [hrow] at h
    split at h
    · rename_i hj
      injection h with h
      subst h
      have hi : i < m.length := by
        rcases List.getElem?_eq_some.1 hrow with ⟨hi, _⟩
        exact hi
      unfold entry
      by_cases hai : a = i
      · subst hai
        simp only [List.getElem?_set_self hi, hrow, true_and]
        by_cases hcj : c = j
        · subst hcj
          simp [List.getElem?_set_self hj]
        · simp [hcj, List.getElem?_set_ne (Ne.symm hcj)]
      · simp [hai, List.getElem?_set_ne (Ne.symm hai)]
    · simp at h

theorem assign_square {m m' : BitMatrix} {i j n : Nat} {b : Bool}
    (h : assign m i j b = some m') (hs : Square m n) : Square m' n := by
  unfold assign at h
  cases hrow : m[i]? with
  | none => simp [hrow] at h
  | some row =>
    simp only [hrow] at h
    split at h
    · injection h with h
      subst h
      refine ⟨by simpa using hs.1, ?_⟩
      intro r hr
      rcases List.mem_or_eq_of_mem_set hr with hr | hr
      · exact hs.2 r hr
      · subst hr
        simpa using hs.2 row (List.getElem?_mem hrow)
    · simp at h

theorem entry_of_square {m : BitMatrix} {n i j : Nat} (hs : Square m n)
    (hi : i < n) (hj : j < n) : ∃ b, entry m i j = some b := by
  have hi' : i < m.length := by rw [hs.1]; exact hi
  have hlen : (m[i]).length = n := hs.2 _ (List.getElem_mem hi')
  refine ⟨(m[i])[j], ?_⟩
  unfold entry
  rw [List.getElem?_eq_getElem hi']
  simp only
  rw [List.getElem?_eq_getElem]

theorem entry_lt {m : BitMatrix} {n i j : Nat} {b : Bool} (hs : Square m n)
    (h : entry m i j = some b) : i < n ∧ j < n := by
  unfold entry at h
  cases hrow : m[i]? with
  | none => simp [hrow] at h
  | some row =>
    simp only [hrow] at h
    rcases List.getElem?_eq_some.1 hrow with ⟨hi, hri⟩
    rcases List.getElem?_eq_some.1 h with ⟨hj, _⟩
    have : row.length = n := hs.2 row (List.getElem?_mem hrow)
    exact ⟨hs.1 ▸ hi, this ▸ hj⟩

theorem assign_of_square {m : BitMatrix} {n i j : Nat} (b : Bool) (hs : Square m n)
    (hi : i < n) (hj : j < n) : ∃ m', assign m i j b = some m' := by
  have hi' : i < m.length := by rw [hs.1]; exact hi
  have hlen : (m[i]).length = n := hs.2 _ (List.getElem_mem hi')
  unfold assign
  rw [List.getElem?_eq_getElem hi']
  simp [hlen, hj]

theorem assign_lt {m m' : BitMatrix} {n i j : Nat} {b : Bool} (hs : Square m n)
    (h : assign m i j b = some m') : i < n ∧ j < n := by
  have h1 := entry_assign h i j
  simp only [and_self, if_true] at h1
  exact entry_lt (assign_square h hs) h1

theorem assign_self {m : BitMatrix} {i j : Nat} {b : Bool}
    (h : entry m i j = some b) : assign m i j b = some m := by
  unfold entry at h
  unfold assign
  cases hrow : m[i]? with
  | none => simp [hrow] at h
  | some row =>
    simp only [hrow] at h
    rcases List.getElem?_eq_some.1 hrow with ⟨hi, hri⟩
    rcases List.getElem?_eq_some.1 h with ⟨hj, hrj⟩
    simp only [hj, if_true, Option.some.injEq]
    rw [set_of_getElem? h, set_of_getElem? hrow]

theorem ext_of_entry {m m' : BitMatrix} {n : Nat} (hs : Square m n) (hs' : Square m' n)
    (h : ∀ a c, entry m a c = entry m' a c) : m = m' := by
  apply List.ext_getElem (hs.1.trans hs'.1.symm)
  intro a ha ha'
  have hl : (m[a]).length = n := hs.2 _ (List.getElem_mem ha)
  have hl' : (m'[a]).length = n := hs'.2 _ (List.getElem_mem ha')
  apply List.ext_getElem (hl.trans hl'.symm)
  intro c hc hc'
  have := h a c
  unfold entry at this
  rw [List.getElem?_eq_getElem ha, List.getElem?_eq_getElem ha'] at this
  simp only at this
  rw [List.getElem?_eq_getElem hc, List.getElem?_eq_getElem hc'] at this
  exact Option.some.inj this

end BitMatrix

theorem length_resize {α : Type} (v : List α) (n : Nat) (fill : α) :
    (resize v n fill).length = n := by
  unfold resize
  simp only [List.length_append, List.length_take, List.length_replicate]
  omega

theorem getElem?_resize {α : Type} (v : List α) (n : Nat) (fill : α) (i : Nat) :
    (resize v n fill)[i]? = if i < n then some (v.getD i fill) else none := by
  unfold resize
  by_cases hi : i < n
  · simp only [hi, if_true]
    by_cases hv : i < v.length
    · rw [List.getElem?_append_left (by simp; omega)]
      simp [List.getElem?_take, hi, hv, List.getD_eq_getElem?_getD]
    · have hlen : (List.take n v).length = v.length := by
        simp only [List.length_take]; omega
      rw [List.getElem?_append_right (by omega), hlen, List.getElem?_replicate,
        List.getD_eq_getElem?_getD, List.getElem?_eq_none (not_lt.1 hv)]
      have : i - v.length < n - v.length := by omega
      simp [this]
  · simp only [hi, if_false]
    apply List.getElem?_eq_none
    simp only [List.length_append, List.length_take, List.length_replicate]
    omega

namespace BitMatrix

theorem square_grow (m : BitMatrix) (n : Nat) : Square (grow m n) n := by
  unfold grow
  refine ⟨by simp [length_resize], ?_⟩
  intro row hrow
  rcases List.mem_map.1 hrow with ⟨r, _, hr⟩
  rw [← hr]
  exact length_resize _ _ _

theorem entry_grow {m : BitMatrix} {k : Nat} (hs : Square m k) (a c : Nat) :
    entry (grow m (k + 1)) a c =
      if a < k ∧ c < k then entry m a c
      else if a < k + 1 ∧ c < k + 1 then some false else none := by
  unfold entry grow
  rw [List.getElem?_map, getElem?_resize]
  by_cases ha : a < k + 1
  · simp only [ha, if_true, Option.map_some', getElem?_resize]
    by_cases hc : c < k + 1
    · simp only [hc, if_true, true_and, and_self]
      by_cases hak : a < k
      · have ha' : a < m.length := by rw [hs.1]; exact hak
        have hl : (m[a]).length = k := hs.2 _ (List.getElem_mem ha')
        rw [List.getD_eq_getElem?_getD, List.getElem?_eq_getElem ha']
        simp only [Option.getD_some, hak, true_and]
        by_cases hck : c < k
        · have hc' : c < (m[a]).length := by rw [hl]; exact hck
          simp [hck, List.getD_eq_getElem?_getD, List.getElem?_eq_getElem hc',
            List.getElem?_eq_getElem ha']
        · have hc' : (m[a]).length ≤ c := by rw [hl]; omega
          simp [hck, List.getD_eq_getElem?_getD, List.getElem?_eq_none hc',
            List.getElem?_eq_getElem ha']
      · have : m.length ≤ a := by rw [hs.1]; omega
        simp [hak, List.getD_eq_getElem?_getD, List.getElem?_eq_none this]
    · have : ¬ (a < k ∧ c < k) := by omega
      simp [hc, this]
  · have : ¬ (a < k ∧ c < k) := by omega
    simp [ha, this]

end BitMatrix

/-! ## Loops -/

theorem forEachM_append {σ : Type} (body : Nat → σ → Except Fault σ) (l₁ l₂ : List Nat) (s : σ) :
    forEachM body (l₁ ++ l₂) s =
      match forEachM body l₁ s with
      | .error e => .error e
      | .ok s' => forEachM body l₂ s' := by
  induction l₁ generalizing s with
  | nil => simp [forEachM]
  | cons i rest ih =>
    simp only [List.cons_append, forEachM]
    cases body i s with
    | error e => rfl
    | ok s' => exact ih s'

theorem forEachM_inv {σ : Type} {body : Nat → σ → Except Fault σ} (I : σ → Prop)
    {l : List Nat} (hstep : ∀ i ∈ l, ∀ s s', I s → body i s = .ok s' → I s')
    {s s' : σ} (h0 : I s) (h : forEachM body l s = .ok s') : I s' := by
  induction l generalizing s with
  | nil =>
    simp only [forEachM, Except.ok.injEq] at h
    exact h ▸ h0
  | cons i rest ih =>
    simp only [forEachM] at h
    cases hb : body i s with
    | error e => simp [hb] at h
    | ok s1 =>
      simp only [hb] at h
      exact ih (fun j hj => hstep j (List.mem_cons_of_mem _ hj))
        (hstep i (List.mem_cons_self _ _) s s1 h0 hb) h

theorem forEachM_congr {σ : Type} {body body' : Nat → σ → Except Fault σ}
    {l : List Nat} (hb : ∀ i ∈ l, ∀ s s', body i s = .ok s' → body' i s = .ok s')
    {s s' : σ} (h : forEachM body l s = .ok s') : forEachM body' l s = .ok s' := by
  induction l generalizing s with
  | nil => simpa [forEachM] using h
  | cons i rest ih =>
    simp only [forEachM] at h ⊢
    cases hbi : body i s with
    | error e => simp [hbi] at h
    | ok s1 =>
      simp only [hbi] at h
      rw [hb i (List.mem_cons_self _ _) s s1 hbi]
      exact ih (fun j hj => hb j (List.mem_cons_of_mem _ hj)) h

/-- A loop fails when, under an invariant its iterations keep, one of its
iterations cannot succeed. -/
theorem forEachM_fails {σ : Type} {body : Nat → σ → Except Fault σ} (G : σ → Prop)
    {l : List Nat} (hstep : ∀ i ∈ l, ∀ s s', G s → body i s = .ok s' → G s')
    {y : Nat} (hy : y ∈ l) (hfail : ∀ s s', G s → body y s ≠ .ok s')
    {s : σ} (h0 : G s) (s' : σ) : forEachM body l s ≠ .ok s' := by
  induction l generalizing s with
  | nil => simp at hy
  | cons i rest ih =>
    intro h
    simp only [forEachM] at h
    cases hb : body i s with
    | error e => simp [hb] at h
    | ok s1 =>
      simp only [hb] at h
      rcases List.mem_cons.1 hy with hyi | hyr
      · subst hyi
        exact hfail s s1 h0 hb
      · exact ih (fun j hj => hstep j (List.mem_cons_of_mem _ hj)) hyr
          (hstep i (List.mem_cons_self _ _) s s1 h0 hb) h

/-- A counted loop whose body depends on a budget returns, for every budget
that is large enough, the registry that an invariant indexed by the loop
counter leads to. -/
theorem forEachM_range_total {σ : Type} (body : Nat → Nat → σ → Except Fault σ)
    (K : Nat → σ → Prop) (n : Nat)
    (hstep : ∀ k, k < n → ∀ s, K k s →
      ∃ F s', (∀ f, F ≤ f → body f k s = .ok s') ∧ K (k + 1) s')
    (s : σ) (h0 : K 0 s) :
    ∃ F s', (∀ f, F ≤ f → forEachM (body f) (List.range n) s = .ok s') ∧ K n s' := by
  induction n with
  | zero => exact ⟨0, s, fun f _ => by simp [forEachM], h0⟩
  | succ n ih =>
    rcases ih (fun k hk => hstep k (Nat.lt_succ_of_lt hk)) with ⟨F1, s1, hrun1, hK1⟩
    rcases hstep n (Nat.lt_succ_self n) s1 hK1 with ⟨F2, s2, hrun2, hK2⟩
    refine ⟨max F1 F2, s2, ?_, hK2⟩
    intro f hf
    rw [List.range_succ, forEachM_append, hrun1 f (le_trans (le_max_left _ _) hf)]
    simp only [forEachM, hrun2 f (le_trans (le_max_right _ _) hf)]

/-! ## The frame of `setParentRecursively` -/

namespace BitMatrix

theorem entry_of_assign {m m' : BitMatrix} {i j : Nat} {b : Bool}
    (h : assign m i j b = some m') : ∃ b0, entry m i j = some b0 := by
  unfold assign at h
  cases hrow : m[i]? with
  | none => simp [hrow] at h
  | some row =>
    simp only [hrow] at h
    split at h
    · rename_i hj
      exact ⟨row[j], by simp [entry, hrow, List.getElem?_eq_getElem hj]⟩
    · simp at h

end BitMatrix

theorem Ext.refl (c : Nat) (s : ClassServer) : Ext c s s :=
  ⟨rfl, fun _ h => h, fun _ _ => Or.inl rfl⟩

theorem Ext.trans {c : Nat} {s₁ s₂ s₃ : ClassServer} (h₁ : Ext c s₁ s₂) (h₂ : Ext c s₂ s₃) :
    Ext c s₁ s₃ := by
  refine ⟨?_, fun n h => h₂.square n (h₁.square n h), ?_⟩
  · have e1 := h₁.rest
    have e2 := h₂.rest
    rw [e2, e1]
  · intro a b
    rcases h₂.entry a b with e2 | ⟨hb, e2, e2'⟩
    · rcases h₁.entry a b with e1 | ⟨hb, e1, e1'⟩
      · exact Or.inl (e2.trans e1)
      · exact Or.inr ⟨hb, e1, e2.trans e1'⟩
    · rcases h₁.entry a b with e1 | ⟨_, _, e1'⟩
      · exact Or.inr ⟨hb, e1 ▸ e2, e2'⟩
      · rw [e1'] at e2
        cases e2

/-- Entries that are true stay true. -/
theorem Ext.mono {c : Nat} {s s' : ClassServer} (h : Ext c s s') {a b : Nat}
    (hab : s.recursiveMap.entry a b = some true) : s'.recursiveMap.entry a b = some true := by
  rcases h.entry a b with e | ⟨_, e, _⟩
  · exact e.trans hab
  · rw [hab] at e
    cases e

/-- Entries outside column `c` are untouched. -/
theorem Ext.off_column {c : Nat} {s s' : ClassServer} (h : Ext c s s') {a b : Nat}
    (hb : b ≠ c) : s'.recursiveMap.entry a b = s.recursiveMap.entry a b := by
  rcases h.entry a b with e | ⟨hbc, _, _⟩
  · exact e
  · exact absurd hbc hb

theorem Ext.nTypes_eq {c : Nat} {s s' : ClassServer} (h : Ext c s s') : s'.nTypes = s.nTypes := by
  rw [h.rest]

theorem Ext.inheritanceMap_eq {c : Nat} {s s' : ClassServer} (h : Ext c s s') :
    s'.inheritanceMap = s.inheritanceMap := by
  rw [h.rest]

namespace ClassServer

theorem setRecursive_ext {p c : Nat} {s s1 : ClassServer}
    (h : setRecursive p c s = .ok s1) : Ext c s s1 ∧ s1.recursiveMap.entry p c = some true := by
  unfold setRecursive at h
  cases hm : s.recursiveMap.assign p c true with
  | none => simp [hm] at h
  | some m =>
    simp only [hm, Except.ok.injEq] at h
    subst h
    have he := BitMatrix.entry_assign hm
    refine ⟨⟨rfl, fun n hn => BitMatrix.assign_square hm hn, ?_⟩, by simp [he]⟩
    intro a b
    simp only [he]
    by_cases hab : a = p ∧ b = c
    · rcases hab with ⟨rfl, rfl⟩
      rcases BitMatrix.entry_of_assign hm with ⟨b0, hb0⟩
      cases b0 with
      | true => left; simp [hb0]
      | false => right; simp [hb0]
    · left; simp [hab]

/-- The frame of `setParentRecursively`: a returning call only turns entries of
column `type` of the closure matrix to true, among them `(parent, type)`. -/
theorem setParentRecursively_ext (fuel : Nat) :
    ∀ (p c : Nat) (s s' : ClassServer), setParentRecursively fuel p c s = .ok s' →
      Ext c s s' ∧ s'.recursiveMap.entry p c = some true := by
  induction fuel with
  | zero => intro p c s s' h; simp [setParentRecursively] at h
  | succ fuel ih =>
    intro p c s s' h
    simp only [setParentRecursively] at h
    cases h1 : setRecursive p c s with
    | error e => simp [h1] at h
    | ok s1 =>
      simp only [h1] at h
      rcases setRecursive_ext h1 with ⟨hext1, hpc⟩
      have hI := forEachM_inv (fun t => Ext c s1 t) (by
        intro i _ t t' ht hbody
        cases hr : t.recursiveMap.entry i p with
        | none => simp [hr] at hbody
        | some b =>
          simp only [hr] at hbody
          split at hbody
          · exact ht.trans (ih i c t t' hbody).1
          · simp only [Except.ok.injEq] at hbody
            exact hbody ▸ ht) (Ext.refl c s1) h
      exact ⟨hext1.trans hI, hI.mono hpc⟩

end ClassServer

namespace ClassServer

theorem setRecursive_entry {p c : Nat} {s s1 : ClassServer}
    (h : setRecursive p c s = .ok s1) (a b : Nat) :
    s1.recursiveMap.entry a b =
      if a = p ∧ b = c then some true else s.recursiveMap.entry a b := by
  unfold setRecursive at h
  cases hm : s.recursiveMap.assign p c true with
  | none => simp [hm] at h
  | some m =>
    simp only [hm, Except.ok.injEq] at h
    subst h
    exact BitMatrix.entry_assign hm a b

theorem setRecursive_of_square {p c n : Nat} {s : ClassServer}
    (hs : s.recursiveMap.Square n) (hp : p < n) (hc : c < n) :
    ∃ s1, setRecursive p c s = .ok s1 := by
  rcases BitMatrix.assign_of_square true hs hp hc with ⟨m, hm⟩
  exact ⟨{ s with recursiveMap := m }, by simp [setRecursive, hm]⟩

/-- A returning call returns the same registry with any larger budget. -/
theorem setParentRecursively_mono (fuel : Nat) :
    ∀ (p c : Nat) (s s' : ClassServer), setParentRecursively fuel p c s = .ok s' →
      ∀ fuel', fuel ≤ fuel' → setParentRecursively fuel' p c s = .ok s' := by
  induction fuel with
  | zero => intro p c s s' h; simp [setParentRecursively] at h
  | succ fuel ih =>
    intro p c s s' h fuel' hle
    obtain ⟨g, rfl⟩ : ∃ g, fuel' = g + 1 := ⟨fuel' - 1, by omega⟩
    simp only [setParentRecursively] at h ⊢
    cases h1 : setRecursive p c s with
    | error e => simp [h1] at h
    | ok s1 =>
      simp only [h1] at h ⊢
      refine forEachM_congr ?_ h
      intro i _ t t' hbody
      cases hr : t.recursiveMap.entry i p with
      | none => simp [hr] at hbody
      | some b =>
        simp only [hr] at hbody ⊢
        split at hbody
        · rename_i hcond
          simp only [hcond, if_true]
          exact ih i c t t' hbody g (by omega)
        · rename_i hcond
          simp only [hcond]
          exact hbody

/-- Two returning calls on the same arguments return the same registry. -/
theorem setParentRecursively_det {f f' p c : Nat} {s s' s'' : ClassServer}
    (h : setParentRecursively f p c s = .ok s') (h' : setParentRecursively f' p c s = .ok s'') :
    s' = s'' := by
  have a := setParentRecursively_mono f p c s s' h (max f f') (le_max_left _ _)
  have b := setParentRecursively_mono f' p c s s'' h' (max f f') (le_max_right _ _)
  rw [a] at b
  exact Except.ok.inj b

/-- Linking `c` under `P` does not return when `c` is already above `P` along a
chain of closure-matrix links: the recursion then runs around the cycle through
`P` and `c`. -/
theorem setParentRecursively_cycle {s0 : ClassServer} {c P n : Nat} (hPc : P ≠ c)
    (hcyc : Relation.ReflTransGen s0.Anc c P) (fuel : Nat) :
    ∀ (q : Nat) (t : ClassServer),
      (∀ a b, s0.recursiveMap.entry a b = some true → t.recursiveMap.entry a b = some true) →
      t.recursiveMap.Square n → t.nTypes = n →
      (t.recursiveMap.entry P c = some true ∨ q = P) →
      Relation.ReflTransGen s0.Anc c q →
      ∀ t', setParentRecursively fuel q c t ≠ .ok t' := by
  induction fuel with
  | zero => intro q t _ _ _ _ _ t' h; simp [setParentRecursively] at h
  | succ fuel ih =>
    intro q t hmono hsq hn hP hq t' h
    simp only [setParentRecursively] at h
    cases h1 : setRecursive q c t with
    | error e => simp [h1] at h
    | ok t1 =>
      simp only [h1] at h
      have hext1 := (setRecursive_ext h1).1
      have hPc1 : t1.recursiveMap.entry P c = some true := by
        rcases hP with hP | hP
        · exact hext1.mono hP
        · subst hP; exact (setRecursive_ext h1).2
      have hn1 : t1.nTypes = n := by rw [hext1.nTypes_eq, hn]
      rw [hn1] at h
      -- the invariant of the loop
      let G : ClassServer → Prop := fun u =>
        (∀ a b, s0.recursiveMap.entry a b = some true → u.recursiveMap.entry a b = some true) ∧
        u.recursiveMap.Square n ∧ u.nTypes = n ∧ u.recursiveMap.entry P c = some true
      have hG1 : G t1 :=
        ⟨fun a b hab => hext1.mono (hmono a b hab), hext1.square n hsq, hn1, hPc1⟩
      have hstep : ∀ i ∈ List.range n, ∀ u u', G u →
          (match u.recursiveMap.entry i q with
            | none => Except.error (Fault.outOfRange u)
            | some b =>
              if (b && decide (i ≠ q)) = true then setParentRecursively fuel i c u
              else Except.ok u) = .ok u' → G u' := by
        intro i _ u u' hu hbody
        cases hr : u.recursiveMap.entry i q with
        | none => simp [hr] at hbody
        | some b =>
          simp only [hr] at hbody
          split at hbody
          · have he := (setParentRecursively_ext fuel i c u u' hbody).1
            exact ⟨fun a b hab => he.mono (hu.1 a b hab), he.square n hu.2.1,
              by rw [he.nTypes_eq, hu.2.2.1], he.mono hu.2.2.2⟩
          · simp only [Except.ok.injEq] at hbody
            exact hbody ▸ hu
      -- the index at which the loop recurses into the cycle
      have hy : ∃ y, y < n ∧ Relation.ReflTransGen s0.Anc c y ∧ y ≠ q ∧
          ∀ u, G u → u.recursiveMap.entry y q = some true := by
        by_cases hqc : q = c
        · subst hqc
          exact ⟨P, (BitMatrix.entry_lt hG1.2.1 hPc1).1, hcyc, hPc, fun u hu => hu.2.2.2⟩
        · rcases Relation.ReflTransGen.cases_tail hq with heq | ⟨y, hcy, hyq⟩
          · exact absurd heq hqc
          · exact ⟨y, (BitMatrix.entry_lt hG1.2.1 (hG1.1 _ _ hyq.1)).1, hcy, hyq.2,
              fun u hu => hu.1 _ _ hyq.1⟩
      rcases hy with ⟨y, hyn, hcy, hyq, hread⟩
      refine forEachM_fails G hstep (List.mem_range.2 hyn) ?_ hG1 t' h
      intro u u' hu hbody
      simp only [hread u hu, Bool.true_and, decide_eq_true_eq, hyq, ne_eq, not_false_eq_true,
        if_true] at hbody
      exact ih y u hu.1 hu.2.1 hu.2.2.1 (Or.inl hu.2.2.2) hcy u' hbody

/-- A returning `setParentRecursively(P, c)` with `P ≠ c` shows that `c` was not
above `P` along closure-matrix links. -/
theorem no_cycle_of_returns {s s' : ClassServer} {fuel P c n : Nat}
    (h : setParentRecursively fuel P c s = .ok s') (hsq : s.recursiveMap.Square n)
    (hn : s.nTypes = n) (hPc : P ≠ c) : ¬ Relation.ReflTransGen s.Anc c P :=
  fun hcyc =>
    setParentRecursively_cycle hPc hcyc fuel P s (fun _ _ hab => hab) hsq hn (Or.inr rfl) hcyc s' h

end ClassServer

namespace ClassServer

open Relation in
/-- The loop of `setParentRecursively(p, c)` started on `t1`, when every index
`k` that the loop visits can be handled: the ancestors `y` of `p` are all visited,
and what a visit marks is above `p`. -/
theorem ancestors_loop (s0 t t1 : ClassServer) {c n p : Nat}
    (hpn : p < n) (hext1 : Ext c t t1) (hsq1 : t1.recursiveMap.Square n)
    (hmark1 : ∀ a, t1.recursiveMap.entry a c = some true →
      t.recursiveMap.entry a c = some true ∨ ReflTransGen s0.Anc a p)
    (hmono : ∀ a b, s0.recursiveMap.entry a b = some true → t.recursiveMap.entry a b = some true)
    (hvisit : ∀ k u, k < n → Ext c t1 u →
      (∀ a, u.recursiveMap.entry a c = some true →
        t.recursiveMap.entry a c = some true ∨ ReflTransGen s0.Anc a p) →
      u.recursiveMap.entry k p = some true → k ≠ p →
      ReflTransGen s0.Anc k p ∧
      ∃ F u', (∀ f, F ≤ f → setParentRecursively f k c u = .ok u') ∧ Ext c u u' ∧
        ∀ a, u'.recursiveMap.entry a c = some true ↔
          u.recursiveMap.entry a c = some true ∨ ReflTransGen s0.Anc a k) :
    ∃ F t', (∀ f, F ≤ f →
        forEachM (fun i st =>
          match st.recursiveMap.entry i p with
          | none => Except.error (Fault.outOfRange st)
          | some b =>
            if (b && decide (i ≠ p)) = true then setParentRecursively f i c st
            else Except.ok st) (List.range n) t1 = .ok t') ∧
      Ext c t1 t' ∧
      (∀ a, t'.recursiveMap.entry a c = some true →
        t.recursiveMap.entry a c = some true ∨ ReflTransGen s0.Anc a p) ∧
      (∀ y, s0.Anc y p → ∀ a, ReflTransGen s0.Anc a y →
        t'.recursiveMap.entry a c = some true) := by
  have key := forEachM_range_total
    (fun f i st =>
      match st.recursiveMap.entry i p with
      | none => Except.error (Fault.outOfRange st)
      | some b =>
        if (b && decide (i ≠ p)) = true then setParentRecursively f i c st
        else Except.ok st)
    (fun k u => Ext c t1 u ∧
      (∀ a, u.recursiveMap.entry a c = some true →
        t.recursiveMap.entry a c = some true ∨ ReflTransGen s0.Anc a p) ∧
      (∀ y, y < k → s0.Anc y p → ∀ a, ReflTransGen s0.Anc a y →
        u.recursiveMap.entry a c = some true))
    n ?_ t1 ⟨Ext.refl c t1, hmark1, fun y hy => absurd hy (Nat.not_lt_zero y)⟩
  · rcases key with ⟨F, t', hrun, hE, hM, hA⟩
    refine ⟨F, t', hrun, hE, hM, ?_⟩
    intro y hy a hay
    have hyn : y < n :=
      (BitMatrix.entry_lt hsq1 (hext1.mono (hmono _ _ hy.1))).1
    exact hA y hyn hy a hay
  · intro k hk u ⟨hE, hM, hA⟩
    have hsqu : u.recursiveMap.Square n := hE.square n hsq1
    cases hr : u.recursiveMap.entry k p with
    | none =>
      -- the read is inside the matrix
      exfalso
      rcases BitMatrix.entry_of_square hsqu hk hpn with ⟨b, hb⟩
      rw [hb] at hr
      cases hr
    | some b =>
      by_cases hcond : (b && decide (k ≠ p)) = true
      · simp only [Bool.and_eq_true, decide_eq_true_eq] at hcond
        rcases hcond with ⟨hb, hkp⟩
        subst hb
        rcases hvisit k u hk hE hM hr hkp with ⟨hkabove, F, u', hrun, hEu, hMu⟩
        refine ⟨F, u', ?_, hE.trans hEu, ?_, ?_⟩
        · intro f hf
          simp only [hr, Bool.true_and, decide_eq_true_eq, hkp, ne_eq, not_false_eq_true,
            if_true]
          exact hrun f hf
        · intro a ha
          rcases (hMu a).1 ha with h | h
          · exact hM a h
          · exact Or.inr (h.trans hkabove)
        · intro y hy hyp a hay
          rcases Nat.lt_succ_iff_lt_or_eq.1 hy with hlt | heq
          · exact hEu.mono (hA y hlt hyp a hay)
          · subst heq
            exact (hMu a).2 (Or.inr hay)
      · refine ⟨0, u, ?_, hE, hM, ?_⟩
        · intro f _
          simp only [hr, hcond]
          rfl
        · intro y hy hyp a hay
          rcases Nat.lt_succ_iff_lt_or_eq.1 hy with hlt | heq
          · exact hA y hlt hyp a hay
          · subst heq
            exfalso
            apply hcond
            have : u.recursiveMap.entry y p = some true :=
              hE.mono (hext1.mono (hmono _ _ hyp.1))
            rw [hr] at this
            simp [Option.some.inj this, hyp.2]

open Relation in
/-- A call `setParentRecursively(p, c)` from which the recursion cannot reach
`c` returns, and marks in column `c` exactly the types above `p`. The registry
`t` of the call may already hold more marks in column `c` than `s0`. -/
theorem setParentRecursively_isolated (s0 : ClassServer) (c n : Nat) (hc : c < n) :
    ∀ p, Acc s0.Anc p → (∀ q, ReflTransGen s0.Anc q p → q ≠ c) → p < n →
      ∀ t, Ext c s0 t → t.recursiveMap.Square n → t.nTypes = n →
        ∃ F t', (∀ f, F ≤ f → setParentRecursively f p c t = .ok t') ∧ Ext c t t' ∧
          ∀ a, t'.recursiveMap.entry a c = some true ↔
            t.recursiveMap.entry a c = some true ∨ ReflTransGen s0.Anc a p := by
  intro p hacc
  induction hacc with
  | intro p _ ih =>
    intro hiso hp t hext hsq hn
    have hpc : p ≠ c := hiso p ReflTransGen.refl
    rcases setRecursive_of_square hsq hp hc with ⟨t1, h1⟩
    have hext1 := (setRecursive_ext h1).1
    have hn1 : t1.nTypes = n := by rw [hext1.nTypes_eq, hn]
    have hloop := ancestors_loop s0 t t1
      hp hext1 (hext1.square n hsq)
      (by
        intro a ha
        rw [setRecursive_entry h1] at ha
        split at ha
        · rename_i hap
          exact Or.inr (hap.1 ▸ ReflTransGen.refl)
        · exact Or.inl ha)
      (fun a b hab => hext.mono hab)
      (by
        intro k u hk hE _ hr hkp
        have hku : s0.Anc k p := by
          refine ⟨?_, hkp⟩
          rw [← hr, (hext.trans (hext1.trans hE)).off_column hpc]
        refine ⟨ReflTransGen.single hku, ?_⟩
        exact ih k hku (fun q hq => hiso q (hq.tail hku)) hk u
          (hext.trans (hext1.trans hE)) (hE.square n (hext1.square n hsq))
          (by rw [hE.nTypes_eq, hn1]))
    rcases hloop with ⟨F, t', hrun, hE, hM, hA⟩
    refine ⟨F + 1, t', ?_, hext1.trans hE, ?_⟩
    · intro f hf
      obtain ⟨g, rfl⟩ : ∃ g, f = g + 1 := ⟨f - 1, by omega⟩
      simp only [setParentRecursively, h1, hn1]
      exact hrun g (by omega)
    · intro a
      constructor
      · exact hM a
      · rintro (h | h)
        · exact (hext1.trans hE).mono h
        · rcases ReflTransGen.cases_tail h with heq | ⟨y, hay, hyp⟩
          · subst heq
            exact hE.mono (setRecursive_ext h1).2
          · exact hA y hyp a hay

theorem not_transGen_self_of_acc {α : Type} {r : α → α → Prop} {x : α} (h : Acc r x) :
    ¬ Relation.TransGen r x x := by
  induction h with
  | intro x _ ih =>
    intro hxx
    rcases Relation.TransGen.tail'_iff.1 hxx with ⟨y, hxy, hyx⟩
    exact ih y hyx (Relation.TransGen.head'_iff.2 ⟨x, hyx, hxy⟩)

open Relation in
/-- The call `setParentRecursively(c, c)` in an acyclic closure matrix returns,
and marks in column `c` exactly the types above `c`. -/
theorem setParentRecursively_self (s0 : ClassServer) (c n : Nat) (hc : c < n)
    (hacc : ∀ q, Acc s0.Anc q) (hsq : s0.recursiveMap.Square n) (hn : s0.nTypes = n) :
    ∃ F t', (∀ f, F ≤ f → setParentRecursively f c c s0 = .ok t') ∧ Ext c s0 t' ∧
      ∀ a, t'.recursiveMap.entry a c = some true ↔
        s0.recursiveMap.entry a c = some true ∨ ReflTransGen s0.Anc a c := by
  rcases setRecursive_of_square hsq hc hc with ⟨t1, h1⟩
  have hext1 := (setRecursive_ext h1).1
  have hn1 : t1.nTypes = n := by rw [hext1.nTypes_eq, hn]
  -- every mark of column `c` is a type above `c`
  have habove : ∀ a, (s0.recursiveMap.entry a c = some true ∨ ReflTransGen s0.Anc a c) →
      ReflTransGen s0.Anc a c := by
    rintro a (h | h)
    · by_cases hac : a = c
      · exact hac ▸ ReflTransGen.refl
      · exact ReflTransGen.single ⟨h, hac⟩
    · exact h
  have hloop := ancestors_loop s0 s0 t1
    hc hext1 (hext1.square n hsq)
    (by
      intro a ha
      rw [setRecursive_entry h1] at ha
      split at ha
      · rename_i hap
        exact Or.inr (hap.1 ▸ ReflTransGen.refl)
      · exact Or.inl ha)
    (fun a b hab => hab)
    (by
      intro k u hk hE hM hr hkc
      have hkabove : ReflTransGen s0.Anc k c := habove k (hM k hr)
      refine ⟨hkabove, ?_⟩
      refine setParentRecursively_isolated s0 c n hc k (hacc k) ?_ hk u (hext1.trans hE)
        (hE.square n (hext1.square n hsq)) (by rw [hE.nTypes_eq, hn1])
      intro q hqk hqc
      subst hqc
      rcases ReflTransGen.cases_head hkabove with heq | ⟨z, hkz, hzc⟩
      · exact hkc heq
      · exact not_transGen_self_of_acc (hacc k)
          (TransGen.head'_iff.2 ⟨z, hkz, hzc.trans hqk⟩))
  rcases hloop with ⟨F, t', hrun, hE, hM, hA⟩
  refine ⟨F + 1, t', ?_, hext1.trans hE, ?_⟩
  · intro f hf
    obtain ⟨g, rfl⟩ : ∃ g, f = g + 1 := ⟨f - 1, by omega⟩
    simp only [setParentRecursively, h1, hn1]
    exact hrun g (by omega)
  · intro a
    constructor
    · exact hM a
    · rintro (h | h)
      · exact (hext1.trans hE).mono h
      · rcases ReflTransGen.cases_tail h with heq | ⟨y, hay, hyp⟩
        · subst heq
          exact hE.mono (setRecursive_ext h1).2
        · exact hA y hyp a hay

end ClassServer

namespace ClassServer

open Relation in
/-- In an acyclic closure matrix, `setParentRecursively(P, c)` returns when `c`
is not above `P`; column `c` then holds, besides its old marks, exactly the
types above `P`. -/
theorem setParentRecursively_total {s : ClassServer} {c P n : Nat}
    (hacc : ∀ q, Acc s.Anc q) (hsq : s.recursiveMap.Square n) (hn : s.nTypes = n)
    (hc : c < n) (hP : P < n) (hno : ¬ TransGen s.Anc c P) :
    ∃ F t', (∀ f, F ≤ f → setParentRecursively f P c s = .ok t') ∧ Ext c s t' ∧
      ∀ a, t'.recursiveMap.entry a c = some true ↔
        s.recursiveMap.entry a c = some true ∨ ReflTransGen s.Anc a P := by
  by_cases hPc : P = c
  · subst hPc
    exact setParentRecursively_self s P n hc hacc hsq hn
  · refine setParentRecursively_isolated s c n hc P (hacc P) ?_ hP s (Ext.refl c s) hsq hn
    intro q hq hqc
    subst hqc
    rcases reflTransGen_iff_eq_or_transGen.1 hq with heq | htg
    · exact hPc heq
    · exact hno htg

open Relation in
/-- What a returning `setParentRecursively(P, c)` has done, in an acyclic
closure matrix. -/
theorem setParentRecursively_returns {s s' : ClassServer} {fuel c P n : Nat}
    (hacc : ∀ q, Acc s.Anc q) (hsq : s.recursiveMap.Square n) (hn : s.nTypes = n)
    (hc : c < n) (hP : P < n) (h : setParentRecursively fuel P c s = .ok s') :
    ¬ TransGen s.Anc c P ∧ Ext c s s' ∧
      ∀ a, s'.recursiveMap.entry a c = some true ↔
        s.recursiveMap.entry a c = some true ∨ ReflTransGen s.Anc a P := by
  have hno : ¬ TransGen s.Anc c P := by
    by_cases hPc : P = c
    · subst hPc
      exact not_transGen_self_of_acc (hacc P)
    · intro htg
      exact no_cycle_of_returns h hsq hn hPc htg.to_reflTransGen
  rcases setParentRecursively_total hacc hsq hn hc hP hno with ⟨F, t', hrun, hE, hM⟩
  have := setParentRecursively_det h (hrun F le_rfl)
  subst this
  exact ⟨hno, hE, hM⟩

open Relation in
/-- Marking the types above `P` in column `c` keeps the closure matrix acyclic
when `c` is not above `P`. -/
theorem acyclic_of_marks {s s' : ClassServer} {c P : Nat}
    (hacc : ∀ q, Acc s.Anc q) (hno : ¬ TransGen s.Anc c P) (hE : Ext c s s')
    (hM : ∀ a, s'.recursiveMap.entry a c = some true →
      s.recursiveMap.entry a c = some true ∨ ReflTransGen s.Anc a P) :
    ∀ q, Acc s'.Anc q := by
  have h1 : ∀ q, Acc s.Anc q → ¬ ReflTransGen s.Anc c q → Acc s'.Anc q := by
    intro q hq
    induction hq with
    | intro q _ ih =>
      intro hcq
      have hqc : q ≠ c := fun e => hcq (e ▸ ReflTransGen.refl)
      refine Acc.intro q (fun y hy => ?_)
      have hy' : s.Anc y q := ⟨by rw [← hE.off_column hqc]; exact hy.1, hy.2⟩
      exact ih y hy' (fun hcy => hcq (hcy.tail hy'))
  have h2 : ∀ y, s'.Anc y c → ¬ ReflTransGen s.Anc c y := by
    intro y hy hcy
    rcases hM y hy.1 with h | h
    · exact not_transGen_self_of_acc (hacc c) (TransGen.tail'_iff.2 ⟨y, hcy, ⟨h, hy.2⟩⟩)
    · rcases reflTransGen_iff_eq_or_transGen.1 (hcy.trans h) with heq | htg
      · subst heq
        rcases reflTransGen_iff_eq_or_transGen.1 h with heq' | htg'
        · exact hy.2 heq'.symm
        · rcases TransGen.tail'_iff.1 htg' with ⟨z, hyz, hzP⟩
          exact not_transGen_self_of_acc (hacc P)
            (TransGen.tail'_iff.2 ⟨z, hcy.trans hyz, hzP⟩)
      · exact hno htg
  have h3 : Acc s'.Anc c := Acc.intro c (fun y hy => h1 y (hacc y) (h2 y hy))
  intro q
  induction hacc q with
  | intro q _ ih =>
    by_cases hqc : q = c
    · exact hqc ▸ h3
    · refine Acc.intro q (fun y hy => ih y ?_)
      exact ⟨by rw [← hE.off_column hqc]; exact hy.1, hy.2⟩

end ClassServer

/-! ## Maps -/

theorem mapFind_filter_ne {κ ν : Type} [DecidableEq κ] (m : List (κ × ν)) {k k' : κ}
    (h : k ≠ k') : mapFind (m.filter (fun e => decide (e.1 ≠ k))) k' = mapFind m k' := by
  induction m with
  | nil => rfl
  | cons e rest ih =>
    obtain ⟨a, v⟩ := e
    by_cases hak : a = k
    · subst hak
      rw [List.filter_cons_of_neg (by simp)]
      simp only [mapFind, h, if_false]
      exact ih
    · rw [List.filter_cons_of_pos (by simp [hak])]
      simp only [mapFind, ih]

theorem mapFind_mapAssign {κ ν : Type} [DecidableEq κ] (m : List (κ × ν)) (k k' : κ) (v : ν) :
    mapFind (mapAssign m k v) k' = if k = k' then some v else mapFind m k' := by
  unfold mapAssign
  by_cases h : k = k'
  · simp [mapFind, h]
  · simp only [mapFind, h, if_false]
    exact mapFind_filter_ne m h

theorem filter_of_mapFind_none {κ ν : Type} [DecidableEq κ] (m : List (κ × ν)) {k : κ}
    (h : mapFind m k = none) : m.filter (fun e => decide (e.1 ≠ k)) = m := by
  induction m with
  | nil => rfl
  | cons e rest ih =>
    obtain ⟨a, v⟩ := e
    by_cases hak : a = k
    · simp [mapFind, hak] at h
    · simp only [mapFind, hak, if_false] at h
      rw [List.filter_cons_of_pos (by simp [hak]), ih h]

theorem not_mem_keys_of_mapFind_none {κ ν : Type} [DecidableEq κ] (m : List (κ × ν)) {k : κ}
    (h : mapFind m k = none) : k ∉ m.map Prod.fst := by
  induction m with
  | nil => simp
  | cons e rest ih =>
    obtain ⟨a, v⟩ := e
    by_cases hak : a = k
    · simp [mapFind, hak] at h
    · simp only [mapFind, hak, if_false] at h
      simp only [List.map_cons, List.mem_cons, not_or]
      exact ⟨fun e => hak e.symm, ih h⟩

namespace ClassServer

/-! ## The single writes of `addType` -/

theorem setInheritance_eq {i j : Nat} {s s1 : ClassServer}
    (h : setInheritance i j s = .ok s1) :
    s1 = { s with inheritanceMap := s1.inheritanceMap } ∧
    (∀ a b, s1.inheritanceMap.entry a b =
      if a = i ∧ b = j then some true else s.inheritanceMap.entry a b) ∧
    (∀ n, s.inheritanceMap.Square n → s1.inheritanceMap.Square n ∧ i < n ∧ j < n) := by
  unfold setInheritance at h
  cases hm : s.inheritanceMap.assign i j true with
  | none => simp [hm] at h
  | some m =>
    simp only [hm, Except.ok.injEq] at h
    subst h
    exact ⟨rfl, BitMatrix.entry_assign hm,
      fun n hn => ⟨BitMatrix.assign_square hm hn, BitMatrix.assign_lt hn hm⟩⟩

theorem setInheritance_of_square {i j n : Nat} {s : ClassServer}
    (hs : s.inheritanceMap.Square n) (hi : i < n) (hj : j < n) :
    ∃ s1, setInheritance i j s = .ok s1 := by
  rcases BitMatrix.assign_of_square true hs hi hj with ⟨m, hm⟩
  exact ⟨{ s with inheritanceMap := m }, by simp [setInheritance, hm]⟩

theorem setInheritance_fault {i j n : Nat} {s : ClassServer}
    (hs : s.inheritanceMap.Square n) (h : ¬ (i < n ∧ j < n)) :
    setInheritance i j s = .error (.outOfRange s) := by
  unfold setInheritance
  cases hm : s.inheritanceMap.assign i j true with
  | none => rfl
  | some m => exact absurd (BitMatrix.assign_lt hs hm) h

theorem setRecursive_lt {i j n : Nat} {s s1 : ClassServer}
    (h : setRecursive i j s = .ok s1) (hs : s.recursiveMap.Square n) : i < n ∧ j < n := by
  unfold setRecursive at h
  cases hm : s.recursiveMap.assign i j true with
  | none => simp [hm] at h
  | some m => exact BitMatrix.assign_lt hs hm

theorem Anc_congr {s s' : ClassServer} (h : s'.recursiveMap = s.recursiveMap) :
    s'.Anc = s.Anc := by
  funext i j
  simp only [Anc, h]

/-- The two ways in which `addType` returns: the name was registered and the call
links its code under one more parent, or the name was not registered and the
call allocates the next code. -/
theorem addType_cases {fuel P : Nat} {name : String} {s : ClassServer} {r : AddTypeResult}
    (h : addType fuel P name s = .ok r) :
    (∃ c s1 s2, getType s name = some c ∧ setInheritance P c s = .ok s1 ∧
      setParentRecursively fuel P c s1 = .ok s2 ∧
      r = { code := c, server := s2, signals := [] }) ∨
    (getType s name = none ∧ ∃ s1 s2 s3 s4,
      setInheritance s.nTypes s.nTypes (allocate s) = .ok s1 ∧
      setInheritance P s.nTypes s1 = .ok s2 ∧
      setRecursive s.nTypes s.nTypes s2 = .ok s3 ∧
      setParentRecursively fuel P s.nTypes s3 = .ok s4 ∧
      r = { code := s.nTypes, server := recordName name s.nTypes s4,
            signals := [(s.nTypes, recordName name s.nTypes s4)] }) := by
  unfold addType at h
  cases hg : getType s name with
  | some c =>
    left
    simp only [hg] at h
    cases h1 : setInheritance P c s with
    | error e => simp [h1] at h
    | ok s1 =>
      simp only [h1] at h
      cases h2 : setParentRecursively fuel P c s1 with
      | error e => simp [h2] at h
      | ok s2 =>
        simp only [h2, Except.ok.injEq] at h
        exact ⟨c, s1, s2, rfl, h1, h2, h.symm⟩
  | none =>
    right
    simp only [hg] at h
    cases h1 : setInheritance s.nTypes s.nTypes (allocate s) with
    | error e => simp [h1] at h
    | ok s1 =>
      simp only [h1] at h
      cases h2 : setInheritance P s.nTypes s1 with
      | error e => simp [h2] at h
      | ok s2 =>
        simp only [h2] at h
        cases h3 : setRecursive s.nTypes s.nTypes s2 with
        | error e => simp [h3] at h
        | ok s3 =>
          simp only [h3] at h
          cases h4 : setParentRecursively fuel P s.nTypes s3 with
          | error e => simp [h4] at h
          | ok s4 =>
            simp only [h4, Except.ok.injEq] at h
            exact ⟨rfl, s1, s2, s3, s4, rfl, h2, h3, h4, h.symm⟩

theorem addType_of_existing {fuel P c : Nat} {name : String} {s s1 s2 : ClassServer}
    (hg : getType s name = some c) (h1 : setInheritance P c s = .ok s1)
    (h2 : setParentRecursively fuel P c s1 = .ok s2) :
    addType fuel P name s = .ok { code := c, server := s2, signals := [] } := by
  simp [addType, hg, h1, h2]

theorem addType_of_new {fuel P : Nat} {name : String} {s s1 s2 s3 s4 : ClassServer}
    (hg : getType s name = none)
    (h1 : setInheritance s.nTypes s.nTypes (allocate s) = .ok s1)
    (h2 : setInheritance P s.nTypes s1 = .ok s2)
    (h3 : setRecursive s.nTypes s.nTypes s2 = .ok s3)
    (h4 : setParentRecursively fuel P s.nTypes s3 = .ok s4) :
    addType fuel P name s =
      .ok { code := s.nTypes, server := recordName name s.nTypes s4,
            signals := [(s.nTypes, recordName name s.nTypes s4)] } := by
  simp [addType, hg, h1, h2, h3, h4]

end ClassServer

namespace ClassServer

/-- Below `NOTYPE` types the counter does not wrap. -/
theorem allocate_of_room {s : ClassServer} (h : s.nTypes < NOTYPE) : allocate s = grown s := by
  have hmod : (s.nTypes + 1) % (NOTYPE + 1) = s.nTypes + 1 :=
    Nat.mod_eq_of_lt (Nat.succ_lt_succ h)
  unfold allocate grown
  rw [hmod]

/-- With `NOTYPE` types the counter wraps to 0 and both matrices are emptied. -/
theorem allocate_full {s : ClassServer} (h : s.nTypes = NOTYPE) :
    (allocate s).nTypes = 0 ∧ (allocate s).inheritanceMap.Square 0 := by
  have hmod : (s.nTypes + 1) % (NOTYPE + 1) = 0 := by rw [h]; exact Nat.mod_self _
  constructor
  · show (s.nTypes + 1) % (NOTYPE + 1) = 0
    exact hmod
  · show (s.inheritanceMap.grow ((s.nTypes + 1) % (NOTYPE + 1))).Square 0
    rw [hmod]
    exact BitMatrix.square_grow _ _

/-- The first write of a new registration is inside the resized matrix only when
the counter has not wrapped. -/
theorem room_of_first_write {s s1 : ClassServer}
    (h1 : setInheritance s.nTypes s.nTypes (allocate s) = .ok s1) : s.nTypes < NOTYPE := by
  have hsq : (allocate s).inheritanceMap.Square ((s.nTypes + 1) % (NOTYPE + 1)) :=
    BitMatrix.square_grow _ _
  have hlt := ((setInheritance_eq h1).2.2 _ hsq).2.1
  have hm : (s.nTypes + 1) % (NOTYPE + 1) < NOTYPE + 1 := Nat.mod_lt _ (Nat.succ_pos _)
  by_contra hroom
  have hle : (s.nTypes + 1) % (NOTYPE + 1) ≤ s.nTypes := by omega
  omega

theorem newPre_of_writes {s s1 s2 s3 : ClassServer} {P : Nat} (hinv : Inv s)
    (h1 : setInheritance s.nTypes s.nTypes (allocate s) = .ok s1)
    (h2 : setInheritance P s.nTypes s1 = .ok s2)
    (h3 : setRecursive s.nTypes s.nTypes s2 = .ok s3) : NewPre s P s3 := by
  have hroom := room_of_first_write h1
  rw [allocate_of_room hroom] at h1
  rcases setInheritance_eq h1 with ⟨e1, ent1, sq1⟩
  rcases setInheritance_eq h2 with ⟨e2, ent2, sq2⟩
  have hsqa : (grown s).inheritanceMap.Square (s.nTypes + 1) :=
    BitMatrix.square_grow _ _
  have hsq1 := (sq1 _ hsqa).1
  rcases sq2 _ hsq1 with ⟨hsq2, hP, _⟩
  have hext3 := (setRecursive_ext h3).1
  have e3 := hext3.rest
  have ent3 := setRecursive_entry h3
  have hr2 : s2.recursiveMap = s.recursiveMap.grow (s.nTypes + 1) := by
    rw [e2, e1]; rfl
  have hsqr2 : s2.recursiveMap.Square (s.nTypes + 1) := by
    rw [hr2]; exact BitMatrix.square_grow _ _
  refine ⟨hroom, Nat.lt_succ_iff.1 hP, ?_, ?_, ?_, ?_, ?_, hext3.square _ hsqr2, ?_, ?_⟩
  · rw [e3, e2, e1]; rfl
  · rw [e3, e2, e1]; rfl
  · rw [e3, e2, e1]; rfl
  · rw [e3, e2, e1]; rfl
  · rw [e3]; exact hsq2
  · intro a b
    rw [ent3, hr2, BitMatrix.entry_grow hinv.sqRec]
  · intro a b
    have : s3.inheritanceMap = s2.inheritanceMap := by rw [e3]
    rw [this, ent2, ent1]
    have hg : (grown s).inheritanceMap.entry a b = _ := BitMatrix.entry_grow hinv.sqInh a b
    rw [hg]
    by_cases hb : b = s.nTypes
    · by_cases ha : a = P
      · simp [ha, hb]
      · by_cases ha' : a = s.nTypes
        · simp [ha', hb]
        · simp [ha, ha', hb]
    · simp [hb]

theorem newPre_exists {s : ClassServer} {P : Nat} (hroom : s.nTypes < NOTYPE)
    (hP : P ≤ s.nTypes) :
    ∃ s1 s2 s3, setInheritance s.nTypes s.nTypes (allocate s) = .ok s1 ∧
      setInheritance P s.nTypes s1 = .ok s2 ∧
      setRecursive s.nTypes s.nTypes s2 = .ok s3 := by
  rw [allocate_of_room hroom]
  have hsqa : (grown s).inheritanceMap.Square (s.nTypes + 1) :=
    BitMatrix.square_grow _ _
  rcases setInheritance_of_square hsqa (Nat.lt_succ_self _) (Nat.lt_succ_self _) with ⟨s1, h1⟩
  rcases setInheritance_eq h1 with ⟨e1, _, sq1⟩
  rcases setInheritance_of_square (sq1 _ hsqa).1 (Nat.lt_succ_of_le hP) (Nat.lt_succ_self _)
    with ⟨s2, h2⟩
  rcases setInheritance_eq h2 with ⟨e2, _, _⟩
  have hsqr2 : s2.recursiveMap.Square (s.nTypes + 1) := by
    have : s2.recursiveMap = s.recursiveMap.grow (s.nTypes + 1) := by rw [e2, e1]; rfl
    rw [this]; exact BitMatrix.square_grow _ _
  rcases setRecursive_of_square hsqr2 (Nat.lt_succ_self _) (Nat.lt_succ_self _) with ⟨s3, h3⟩
  exact ⟨s1, s2, s3, h1, h2, h3⟩

/-- The ancestor links of the registry prepared for a new type are those of the
registry before the call: the new type has only its diagonal entry. -/
theorem NewPre.anc {s s3 : ClassServer} {P : Nat} (hinv : Inv s) (h : NewPre s P s3) :
    s3.Anc = s.Anc := by
  funext i j
  apply propext
  unfold Anc
  rw [h.recEntry]
  constructor
  · rintro ⟨he, hij⟩
    refine ⟨?_, hij⟩
    by_cases hn : i = s.nTypes ∧ j = s.nTypes
    · exact absurd (hn.1.trans hn.2.symm) hij
    · simp only [hn, if_false] at he
      by_cases hlt : i < s.nTypes ∧ j < s.nTypes
      · simpa [hlt] using he
      · simp only [hlt, if_false] at he
        split at he <;> cases he
  · rintro ⟨he, hij⟩
    refine ⟨?_, hij⟩
    have hlt := BitMatrix.entry_lt hinv.sqRec he
    have hn : ¬ (i = s.nTypes ∧ j = s.nTypes) := fun e => absurd hlt.1 (by omega)
    simp [hn, hlt, he]

theorem not_anc_nTypes {s : ClassServer} (hinv : Inv s) (x : Nat) : ¬ s.Anc s.nTypes x :=
  fun h => absurd (BitMatrix.entry_lt hinv.sqRec h.1).1 (lt_irrefl _)

theorem not_anc_to_nTypes {s : ClassServer} (hinv : Inv s) (x : Nat) : ¬ s.Anc x s.nTypes :=
  fun h => absurd (BitMatrix.entry_lt hinv.sqRec h.1).2 (lt_irrefl _)

end ClassServer

namespace ClassServer

open Relation

/-- A chain of ancestor links of the registry after marking column `c` is, up to
its last passage through `c`, a chain of the registry before. -/
theorem chain_split {c : Nat} {pre post : ClassServer} (hE : Ext c pre post) {a b : Nat}
    (h : ReflTransGen post.Anc a b) :
    ReflTransGen pre.Anc a b ∨ ReflTransGen pre.Anc c b := by
  induction h with
  | refl => exact Or.inl ReflTransGen.refl
  | tail hab hbd ih =>
    rename_i b d
    by_cases hdc : d = c
    · exact Or.inr (hdc ▸ ReflTransGen.refl)
    · have hbd' : pre.Anc b d := ⟨by rw [← hE.off_column hdc]; exact hbd.1, hbd.2⟩
      rcases ih with h | h
      · exact Or.inl (h.tail hbd')
      · exact Or.inr (h.tail hbd')

/-- Repeating a call of `setParentRecursively` that returned: the second call
returns and leaves the registry as it is. -/
theorem setParentRecursively_again {pre post t : ClassServer} {fuel c P n : Nat}
    (hacc : ∀ q, Acc pre.Anc q) (hsq : pre.recursiveMap.Square n) (hn : pre.nTypes = n)
    (hc : c < n) (hP : P < n) (h : setParentRecursively fuel P c pre = .ok post)
    (ht : t.recursiveMap = post.recursiveMap) (htn : t.nTypes = n) :
    ∃ F, ∀ f, F ≤ f → setParentRecursively f P c t = .ok t := by
  rcases setParentRecursively_returns hacc hsq hn hc hP h with ⟨hno, hE, hM⟩
  have hacc' : ∀ q, Acc post.Anc q := acyclic_of_marks hacc hno hE (fun a ha => (hM a).1 ha)
  have hanc : t.Anc = post.Anc := Anc_congr ht
  have hsqt : t.recursiveMap.Square n := by rw [ht]; exact hE.square n hsq
  -- every type above `P` after the first call is marked
  have hmarked : ∀ a, ReflTransGen post.Anc a P → post.recursiveMap.entry a c = some true := by
    intro a ha
    by_cases hPc : P = c
    · subst hPc
      rcases ReflTransGen.cases_tail ha with heq | ⟨y, hay, hyP⟩
      · exact (hM a).2 (Or.inr (heq ▸ ReflTransGen.refl))
      · have hy : ReflTransGen pre.Anc y P := by
          rcases (hM y).1 hyP.1 with h | h
          · exact ReflTransGen.single ⟨h, hyP.2⟩
          · exact h
        rcases chain_split hE hay with h | h
        · exact (hM a).2 (Or.inr (h.trans hy))
        · exfalso
          rcases reflTransGen_iff_eq_or_transGen.1 h with heq | htg
          · exact hyP.2 heq
          · exact not_transGen_self_of_acc (hacc P) (htg.trans_left hy)
    · rcases chain_split hE ha with h | h
      · exact (hM a).2 (Or.inr h)
      · exfalso
        rcases reflTransGen_iff_eq_or_transGen.1 h with heq | htg
        · exact hPc heq
        · exact hno htg
  have hno' : ¬ TransGen t.Anc c P := by
    rw [hanc]
    by_cases hPc : P = c
    · subst hPc; exact not_transGen_self_of_acc (hacc' P)
    · intro htg
      have : ReflTransGen pre.Anc c P := by
        rcases chain_split hE htg.to_reflTransGen with h | h <;> exact h
      rcases reflTransGen_iff_eq_or_transGen.1 this with heq | htg'
      · exact hPc heq
      · exact hno htg'
  rcases setParentRecursively_total (s := t) (by rw [hanc]; exact hacc') hsqt htn hc hP hno'
    with ⟨F, t', hrun, hE', hM'⟩
  have hrec : t'.recursiveMap = t.recursiveMap := by
    apply BitMatrix.ext_of_entry (hE'.square n hsqt) hsqt
    intro a b
    rcases hE'.entry a b with e | ⟨hb, hfalse, htrue⟩
    · exact e
    · exfalso
      subst hb
      rcases (hM' a).1 htrue with h | h
      · rw [h] at hfalse; cases hfalse
      · rw [hanc] at h
        have := hmarked a h
        rw [ht, this] at hfalse
        cases hfalse
  have : t' = t := by
    have e := hE'.rest
    rw [hrec] at e
    exact e
  subst this
  exact ⟨F, hrun⟩

end ClassServer

namespace ClassServer

open Relation

theorem not_transGen_from_nTypes {s : ClassServer} (hinv : Inv s) (x : Nat) :
    ¬ TransGen s.Anc s.nTypes x := by
  intro h
  rcases TransGen.head'_iff.1 h with ⟨b, hb, _⟩
  exact not_anc_nTypes hinv b hb

theorem reflTransGen_to_nTypes {s : ClassServer} (hinv : Inv s) {a : Nat}
    (h : ReflTransGen s.Anc a s.nTypes) : a = s.nTypes := by
  rcases ReflTransGen.cases_tail h with heq | ⟨y, _, hy⟩
  · exact heq.symm
  · exact absurd hy (not_anc_to_nTypes hinv y)

theorem addType_new_total {s : ClassServer} {P : Nat} {name : String} (hinv : Inv s)
    (hg : getType s name = none) (hroom : s.nTypes < NOTYPE) (hP : P ≤ s.nTypes) :
    ∃ F, ∀ f, F ≤ f → ∃ r, addType f P name s = .ok r := by
  rcases newPre_exists hroom hP with ⟨s1, s2, s3, h1, h2, h3⟩
  have hpre := newPre_of_writes hinv h1 h2 h3
  have hanc := NewPre.anc hinv hpre
  have hno : ¬ TransGen s3.Anc s.nTypes P := by
    rw [hanc]; exact not_transGen_from_nTypes hinv P
  rcases setParentRecursively_total (s := s3) (c := s.nTypes) (P := P) (n := s.nTypes + 1)
    (by rw [hanc]; exact hinv.acyclic) hpre.sqRec hpre.nTypes (Nat.lt_succ_self _)
    (Nat.lt_succ_of_le hP) hno with ⟨F, s4, hrun, _, _⟩
  exact ⟨F, fun f hf => ⟨_, addType_of_new hg h1 h2 h3 (hrun f hf)⟩⟩

theorem addType_new_post {s : ClassServer} {fuel P : Nat} {name : String} {r : AddTypeResult}
    (hinv : Inv s) (hg : getType s name = none) (h : addType fuel P name s = .ok r) :
    NewPost s P name r := by
  rcases addType_cases h with ⟨c, _, _, hc, _⟩ | ⟨_, s1, s2, s3, s4, h1, h2, h3, h4, hr⟩
  · rw [hg] at hc; cases hc
  have hpre := newPre_of_writes hinv h1 h2 h3
  have hanc := NewPre.anc hinv hpre
  have hacc3 : ∀ q, Acc s3.Anc q := by rw [hanc]; exact hinv.acyclic
  rcases setParentRecursively_returns hacc3 hpre.sqRec hpre.nTypes (Nat.lt_succ_self _)
    (Nat.lt_succ_of_le hpre.parent) h4 with ⟨hno, hE, hM⟩
  have hacc4 := acyclic_of_marks hacc3 hno hE (fun a ha => (hM a).1 ha)
  have e4 := hE.rest
  have hn4 : s4.nTypes = s.nTypes + 1 := by rw [hE.nTypes_eq, hpre.nTypes]
  have hinh4 : s4.inheritanceMap = s3.inheritanceMap := hE.inheritanceMap_eq
  -- the entries of the closure matrix after the call
  have hrec : ∀ a b, s4.recursiveMap.entry a b = some true ↔
      s.recursiveMap.entry a b = some true ∨
        (b = s.nTypes ∧ (a = s.nTypes ∨ ReflTransGen s.Anc a P)) := by
    intro a b
    by_cases hb : b = s.nTypes
    · subst hb
      rw [hM a, hpre.recEntry, hanc]
      have hold : ¬ s.recursiveMap.entry a s.nTypes = some true :=
        fun he => absurd (BitMatrix.entry_lt hinv.sqRec he).2 (lt_irrefl _)
      by_cases ha : a = s.nTypes
      · simp [ha]
      · have : ¬ (a < s.nTypes ∧ s.nTypes < s.nTypes) := by omega
        simp only [ha, false_and, if_false, this, hold, true_and, false_or]
        constructor
        · rintro (h | h)
          · split at h <;> cases h
          · exact h
        · exact Or.inr
    · rw [hE.off_column hb, hpre.recEntry]
      simp only [hb, and_false, if_false, false_and, or_false]
      by_cases hlt : a < s.nTypes ∧ b < s.nTypes
      · simp [hlt]
      · simp only [hlt, if_false]
        constructor
        · intro h; split at h <;> cases h
        · intro h; exact absurd (BitMatrix.entry_lt hinv.sqRec h) hlt
  have hinh : ∀ a b, s4.inheritanceMap.entry a b = some true ↔
      s.inheritanceMap.entry a b = some true ∨ (b = s.nTypes ∧ (a = s.nTypes ∨ a = P)) := by
    intro a b
    rw [hinh4, hpre.inhEntry]
    by_cases hb : b = s.nTypes
    · subst hb
      have hold : ¬ s.inheritanceMap.entry a s.nTypes = some true :=
        fun he => absurd (BitMatrix.entry_lt hinv.sqInh he).2 (lt_irrefl _)
      by_cases ha : a = P ∨ a = s.nTypes
      · simp [ha, Or.comm.1 ha]
      · have ha' : ¬ (a = s.nTypes ∨ a = P) := fun e => ha (Or.comm.1 e)
        have : ¬ (a < s.nTypes ∧ s.nTypes < s.nTypes) := by omega
        simp only [ha, false_and, if_false, this, hold, ha', and_false, or_false, iff_false]
        intro h; split at h <;> cases h
    · simp only [hb, and_false, if_false, false_and, or_false]
      by_cases hlt : a < s.nTypes ∧ b < s.nTypes
      · simp [hlt]
      · simp only [hlt, if_false]
        constructor
        · intro h; split at h <;> cases h
        · intro h; exact absurd (BitMatrix.entry_lt hinv.sqInh h) hlt
  subst hr
  refine ⟨hpre.room, hpre.parent, rfl, rfl, hn4, ?_, ?_, ?_, hrec, hinh, ?_, ?_⟩
  · show mapAssign s4.name2CodeMap name s.nTypes = _
    rw [e4, hpre.name2CodeMap]
  · show mapAssign s4.code2NameMap s.nTypes name = _
    rw [e4, hpre.code2NameMap]
  · show s4._atomFactory = _
    rw [e4, hpre.atomFactory]
  · intro t ht htn
    exact setParentRecursively_again hacc3 hpre.sqRec hpre.nTypes (Nat.lt_succ_self _)
      (Nat.lt_succ_of_le hpre.parent) h4 ht (htn.trans hn4)
  · have hfilter := filter_of_mapFind_none s.name2CodeMap hg
    have hnames : (recordName name s.nTypes s4).name2CodeMap =
        (name, s.nTypes) :: s.name2CodeMap := by
      show mapAssign s4.name2CodeMap name s.nTypes = _
      rw [e4, hpre.name2CodeMap]
      show (name, s.nTypes) :: _ = _
      rw [hfilter]
    refine ⟨?_, ?_, hacc4, ?_, ?_, ?_, ?_, ?_, ?_⟩
    · show s4.inheritanceMap.Square s4.nTypes
      rw [hn4, hinh4]; exact hpre.sqInh
    · show s4.recursiveMap.Square s4.nTypes
      rw [hn4]; exact hE.square _ hpre.sqRec
    · intro t ht
      show s4.recursiveMap.entry t t = some true
      rw [hrec]
      have ht' : t < s.nTypes + 1 := hn4 ▸ ht
      rcases Nat.lt_succ_iff_lt_or_eq.1 ht' with hlt | heq
      · exact Or.inl (hinv.reflRec t hlt)
      · exact Or.inr ⟨heq, Or.inl heq⟩
    · intro t ht
      show s4.inheritanceMap.entry t t = some true
      rw [hinh]
      have ht' : t < s.nTypes + 1 := hn4 ▸ ht
      rcases Nat.lt_succ_iff_lt_or_eq.1 ht' with hlt | heq
      · exact Or.inl (hinv.reflInh t hlt)
      · exact Or.inr ⟨heq, Or.inl heq⟩
    · intro nm c hc
      show c < s4.nTypes
      rw [hn4]
      have hc' : mapFind (recordName name s.nTypes s4).name2CodeMap nm = some c := hc
      rw [hnames] at hc'
      simp only [mapFind] at hc'
      split at hc'
      · cases hc'; exact Nat.lt_succ_self _
      · exact Nat.lt_succ_of_lt (hinv.codes nm c hc')
    · rw [hnames]
      simp only [List.map_cons, List.nodup_cons]
      exact ⟨not_mem_keys_of_mapFind_none _ hg, hinv.namesNodup⟩
    · rw [hnames]
      show s.name2CodeMap.length + 1 = s4.nTypes
      rw [hn4, hinv.namesLength]
    · show s4.nTypes ≤ NOTYPE
      rw [hn4]
      exact hpre.room

end ClassServer

namespace ClassServer

open Relation

theorem addType_link_total {s : ClassServer} {P c : Nat} {name : String} (hinv : Inv s)
    (hg : getType s name = some c) (hP : P < s.nTypes) (hno : ¬ TransGen s.Anc c P) :
    ∃ F, ∀ f, F ≤ f → ∃ r, addType f P name s = .ok r := by
  have hc := hinv.codes name c hg
  rcases setInheritance_of_square hinv.sqInh hP hc with ⟨s1, h1⟩
  rcases setInheritance_eq h1 with ⟨e1, _, _⟩
  have hrec1 : s1.recursiveMap = s.recursiveMap := by rw [e1]
  have hn1 : s1.nTypes = s.nTypes := by rw [e1]
  have hanc := Anc_congr hrec1
  rcases setParentRecursively_total (s := s1) (c := c) (P := P) (n := s.nTypes)
    (by rw [hanc]; exact hinv.acyclic) (by rw [hrec1]; exact hinv.sqRec) hn1 hc hP
    (by rw [hanc]; exact hno) with ⟨F, s2, hrun, _, _⟩
  exact ⟨F, fun f hf => ⟨_, addType_of_existing hg h1 (hrun f hf)⟩⟩

theorem addType_link_post {s : ClassServer} {fuel P c : Nat} {name : String}
    {r : AddTypeResult} (hinv : Inv s) (hg : getType s name = some c)
    (h : addType fuel P name s = .ok r) : LinkPost s P c r := by
  rcases addType_cases h with ⟨c', s1, s2, hc', h1, h2, hr⟩ | ⟨hnone, _⟩
  swap
  · rw [hg] at hnone; cases hnone
  rw [hg] at hc'
  cases hc'
  have hc := hinv.codes name c hg
  rcases setInheritance_eq h1 with ⟨e1, ent1, sq1⟩
  rcases sq1 _ hinv.sqInh with ⟨hsq1, hP, _⟩
  have hrec1 : s1.recursiveMap = s.recursiveMap := by rw [e1]
  have hn1 : s1.nTypes = s.nTypes := by rw [e1]
  have hanc := Anc_congr hrec1
  have hacc1 : ∀ q, Acc s1.Anc q := by rw [hanc]; exact hinv.acyclic
  rcases setParentRecursively_returns hacc1 (by rw [hrec1]; exact hinv.sqRec) hn1 hc hP h2
    with ⟨hno, hE, hM⟩
  have hacc2 := acyclic_of_marks hacc1 hno hE (fun a ha => (hM a).1 ha)
  have e2 := hE.rest
  have hn2 : s2.nTypes = s.nTypes := by rw [hE.nTypes_eq, hn1]
  have hrec : ∀ a b, s2.recursiveMap.entry a b = some true ↔
      s.recursiveMap.entry a b = some true ∨ (b = c ∧ ReflTransGen s.Anc a P) := by
    intro a b
    by_cases hb : b = c
    · subst hb
      rw [hM a, hrec1, hanc]
      simp
    · rw [hE.off_column hb, hrec1]
      simp [hb]
  have hinh : ∀ a b, s2.inheritanceMap.entry a b = some true ↔
      s.inheritanceMap.entry a b = some true ∨ (a = P ∧ b = c) := by
    intro a b
    rw [hE.inheritanceMap_eq, ent1]
    by_cases hab : a = P ∧ b = c
    · simp [hab]
    · simp [hab]
  subst hr
  refine ⟨hP, by rw [← hanc]; exact hno, rfl, rfl, ?_, hrec, hinh, ?_, ?_⟩
  · show s2 = _
    rw [e2, e1]
  · intro t ht htn
    exact setParentRecursively_again hacc1 (by rw [hrec1]; exact hinv.sqRec) hn1 hc hP h2 ht
      (htn.trans hn2)
  · have hnames : s2.name2CodeMap = s.name2CodeMap := by rw [e2, e1]
    refine ⟨?_, ?_, hacc2, ?_, ?_, ?_, ?_, ?_, ?_⟩
    · show s2.inheritanceMap.Square s2.nTypes
      rw [hn2, hE.inheritanceMap_eq]; exact hsq1
    · show s2.recursiveMap.Square s2.nTypes
      rw [hn2]; exact hE.square _ (by rw [hrec1]; exact hinv.sqRec)
    · intro t ht
      exact (hrec t t).2 (Or.inl (hinv.reflRec t (hn2 ▸ ht)))
    · intro t ht
      exact (hinh t t).2 (Or.inl (hinv.reflInh t (hn2 ▸ ht)))
    · intro nm d hd
      show d < s2.nTypes
      rw [hn2]
      refine hinv.codes nm d ?_
      have : mapFind s2.name2CodeMap nm = some d := hd
      rw [hnames] at this
      exact this
    · show (s2.name2CodeMap.map Prod.fst).Nodup
      rw [hnames]; exact hinv.namesNodup
    · show s2.name2CodeMap.length = s2.nTypes
      rw [hnames, hn2]; exact hinv.namesLength
    · show s2.nTypes ≤ NOTYPE
      rw [hn2]; exact hinv.bound

theorem inv_init : Inv init := by
  refine ⟨⟨rfl, by simp [init]⟩, ⟨rfl, by simp [init]⟩, ?_, ?_, ?_, ?_, ?_, rfl,
    Nat.zero_le _⟩
  · intro q
    refine Acc.intro q (fun y hy => ?_)
    have := hy.1
    simp [init, BitMatrix.entry] at this
  · intro t ht; exact absurd ht (Nat.not_lt_zero t)
  · intro t ht; exact absurd ht (Nat.not_lt_zero t)
  · intro nm c hc; simp [getType, init, mapFind] at hc
  · simp [init]

theorem inv_addFactory {s : ClassServer} (t : Nat) (fact : Option AtomFactory)
    (h : Inv s) : Inv (addFactory t fact s) :=
  ⟨h.sqInh, h.sqRec, h.acyclic, h.reflRec, h.reflInh, h.codes, h.namesNodup, h.namesLength,
    h.bound⟩

/-- Every returning `addType` call keeps the class invariant. -/
theorem inv_addType {s : ClassServer} {fuel P : Nat} {name : String} {r : AddTypeResult}
    (hinv : Inv s) (h : addType fuel P name s = .ok r) : Inv r.server := by
  cases hg : getType s name with
  | none => exact (addType_new_post hinv hg h).inv
  | some c => exact (addType_link_post hinv hg h).inv

end ClassServer

/-- Every reachable registry satisfies the class invariant. -/
theorem Reachable.invariant {s : ClassServer} (h : Reachable s) : Inv s := by
  induction h with
  | init => exact ClassServer.inv_init
  | addType _ hcall ih => exact ClassServer.inv_addType ih hcall
  | addFactory t fact _ ih => exact ClassServer.inv_addFactory t fact ih

open ClassServer Relation

/-! ## Queries on a registry that satisfies the class invariant -/

theorem isDescendant_iff {s : ClassServer} (hinv : Inv s) (a b : Nat) :
    isDescendant s a b = some true ↔ s.recursiveMap.entry a b = some true := by
  unfold isDescendant
  constructor
  · intro h
    split at h
    · cases h
    · exact h
  · intro h
    have hlt := BitMatrix.entry_lt hinv.sqRec h
    have : ¬ (b ≥ s.nTypes ∨ a ≥ s.nTypes) := by omega
    simp only [this, if_false]
    exact h

theorem isA_non_recursive_iff {s : ClassServer} (hinv : Inv s) (t p : Nat) :
    isA_non_recursive s t p = some true ↔ s.inheritanceMap.entry p t = some true := by
  unfold isA_non_recursive
  constructor
  · intro h
    split at h
    · cases h
    · exact h
  · intro h
    have hlt := BitMatrix.entry_lt hinv.sqInh h
    have : ¬ (t ≥ s.nTypes ∨ p ≥ s.nTypes) := by omega
    simp only [this, if_false]
    exact h

theorem Reachable.of_bootstrap (fuel : Nat) (feed : List (Nat × String)) {s s' : ClassServer}
    (hs : Reachable s) (h : bootstrap fuel feed s = .ok s') : Reachable s' := by
  induction feed generalizing s with
  | nil =>
    simp only [OpenCog.bootstrap, Except.ok.injEq] at h
    exact h ▸ hs
  | cons call rest ih =>
    obtain ⟨parent, name⟩ := call
    simp only [OpenCog.bootstrap] at h
    cases hcall : ClassServer.addType fuel parent name s with
    | error e => simp [hcall] at h
    | ok r =>
      simp only [hcall] at h
      exact ih (Reachable.addType hs hcall) h

theorem reachable_beforeLink : Reachable beforeLink :=
  Reachable.of_bootstrap 3 [(0, "Root"), (0, "A"), (0, "B"), (2, "C")]
    Reachable.init rfl

theorem reachable_twoTypes : Reachable twoTypes :=
  Reachable.of_bootstrap 3 [(0, "A"), (0, "B")] Reachable.init rfl

theorem reachable_hybridUnderA : Reachable hybridUnderA :=
  Reachable.of_bootstrap 3 [(0, "Root"), (0, "A"), (0, "B"), (1, "Hybrid")]
    Reachable.init rfl

theorem reachable_rootChild : Reachable rootChild :=
  Reachable.of_bootstrap 3 [(0, "Root"), (0, "Child")] Reachable.init rfl

open ClassServer Relation

/-! ## A registry with `NOTYPE` types -/

theorem mapFind_none_of_not_mem_keys {κ ν : Type} [DecidableEq κ] (m : List (κ × ν)) {k : κ}
    (h : k ∉ m.map Prod.fst) : mapFind m k = none := by
  induction m with
  | nil => rfl
  | cons e rest ih =>
    obtain ⟨a, v⟩ := e
    simp only [List.map_cons, List.mem_cons, not_or] at h
    have hak : ¬ a = k := fun e => h.1 e.symm
    simp only [mapFind, hak, if_false]
    exact ih h.2

/-- Every registry leaves some name unregistered. -/
theorem exists_unregistered_name (s : ClassServer) : ∃ n, getType s n = none := by
  rcases Infinite.exists_not_mem_finset (s.name2CodeMap.map Prod.fst).toFinset with ⟨n, hn⟩
  exact ⟨n, mapFind_none_of_not_mem_keys _ (fun h => hn (List.mem_toFinset.2 h))⟩

/-- Registries with any number of types up to `NOTYPE` are reachable. -/
theorem reachable_with_count (k : Nat) (hk : k ≤ NOTYPE) :
    ∃ s, Reachable s ∧ s.nTypes = k := by
  induction k with
  | zero => exact ⟨init, Reachable.init, rfl⟩
  | succ k ih =>
    rcases ih (Nat.le_of_succ_le hk) with ⟨s, hs, hsk⟩
    rcases exists_unregistered_name s with ⟨n, hn⟩
    have hroom : s.nTypes < NOTYPE := by rw [hsk]; exact hk
    rcases addType_new_total hs.invariant hn hroom (Nat.zero_le _) with ⟨F, hF⟩
    rcases hF F le_rfl with ⟨r, hr⟩
    refine ⟨r.server, Reachable.addType hs hr, ?_⟩
    rw [(addType_new_post hs.invariant hn hr).nTypes, hsk]

/-- With `NOTYPE` types registered, registering one more name wraps the counter
to 0, empties both matrices and indexes the empty inheritance matrix. -/
theorem addType_full_faults {s : ClassServer} {n : String} (hn : getType s n = none)
    (hfull : s.nTypes = NOTYPE) (fuel P : Nat) :
    addType fuel P n s = .error (.outOfRange (allocate s)) := by
  have hf : setInheritance s.nTypes s.nTypes (allocate s) = .error (.outOfRange (allocate s)) :=
    setInheritance_fault (allocate_full hfull).2 (fun h => Nat.not_lt_zero _ h.1)
  simp [addType, hn, hf]

/-- A reachable registry with `NOTYPE` types and an unregistered name, on which
every registration of that name fails after the counter has wrapped. -/
theorem exists_full_registry :
    ∃ s n, Reachable s ∧ s.nTypes = NOTYPE ∧ getType s n = none ∧
      (allocate s).nTypes = 0 ∧
      ∀ fuel P, addType fuel P n s = .error (.outOfRange (allocate s)) := by
  rcases reachable_with_count NOTYPE le_rfl with ⟨s, hs, hfull⟩
  rcases exists_unregistered_name s with ⟨n, hn⟩
  exact ⟨s, n, hs, hfull, hn, (allocate_full hfull).1, addType_full_faults hn hfull⟩

/-! ## C1: transitivity of the ancestry query -/

/-- C1, evaluated on the code: transitivity of `isDescendant` does not survive a
later second link. In the reachable registry with Root, A and B under Root and
C under B (so C is already a descendant of B), the call `addType(A, "B")`
returns the code of B and marks B under A, but leaves C unmarked under A: afterwards
`isDescendant(A, B)` and `isDescendant(B, C)` are true and `isDescendant(A, C)`
is false. -/
theorem C1_transitivity_lost_after_late_link :
    Reachable beforeLink ∧ isDescendant beforeLink 2 3 = some true ∧
    addType 3 1 "B" beforeLink = .ok { code := 2, server := afterLink, signals := [] } ∧
    Reachable afterLink ∧
    isDescendant afterLink 1 2 = some true ∧ isDescendant afterLink 2 3 = some true ∧
    isDescendant afterLink 1 3 = some false :=
  ⟨reachable_beforeLink, by decide, rfl,
    @Reachable.addType beforeLink 3 1 "B" _ reachable_beforeLink rfl,
    by decide, by decide, by decide⟩

/-! ## C2: linking a registered name under one more parent -/

/-- C2 as stated fails: in the reachable registry with A as a root and B under
A, the name "A" is registered with code 0 and the parent 1 is a registered code,
yet `addType(1, "A")` returns for no recursion budget: `setParentRecursively`
runs around the cycle between A and B. -/
theorem C2_counterexample_link_under_descendant :
    Reachable twoTypes ∧ getType twoTypes "A" = some 0 ∧ 1 < getNumberOfClasses twoTypes ∧
    ∀ fuel r, addType fuel 1 "A" twoTypes ≠ .ok r := by
  refine ⟨reachable_twoTypes, by decide, by decide, ?_⟩
  intro fuel r h
  have hpost := addType_link_post (c := 0) reachable_twoTypes.invariant (by decide) h
  exact hpost.noCycle (TransGen.single ⟨by decide, by decide⟩)

/-- C2, amended: in every reachable registry, for a registered name `n` with code
`c` and a registered parent `P` such that `c` is not above `P` along a chain of
closure-matrix ancestor links, `addType(P, n)` returns; every returning call
returns `c`, leaves the number of classes unchanged, and afterwards
`isDescendant(P, c)` holds and `isDescendant(X, c)` holds for every `X` with
`isDescendant(X, P)` before the call. -/
theorem C2_multiple_inheritance_propagation {s : ClassServer} {n : String} {c P : Nat}
    (hs : Reachable s) (hn : getType s n = some c) (hP : P < getNumberOfClasses s)
    (hno : ¬ TransGen s.Anc c P) :
    (∃ fuel r, addType fuel P n s = .ok r) ∧
    ∀ fuel r, addType fuel P n s = .ok r →
      r.code = c ∧ getNumberOfClasses r.server = getNumberOfClasses s ∧
      isDescendant r.server P c = some true ∧
      ∀ X, isDescendant s X P = some true → isDescendant r.server X c = some true := by
  have hinv := hs.invariant
  constructor
  · rcases addType_link_total hinv hn hP hno with ⟨F, hF⟩
    rcases hF F le_rfl with ⟨r, hr⟩
    exact ⟨F, r, hr⟩
  · intro fuel r h
    have hpost := addType_link_post hinv hn h
    refine ⟨hpost.code, ?_, ?_, ?_⟩
    · show r.server.nTypes = s.nTypes
      rw [hpost.rest]
    · rw [isDescendant_iff hpost.inv, hpost.recEntry]
      exact Or.inr ⟨rfl, ReflTransGen.refl⟩
    · intro X hX
      rw [isDescendant_iff hinv] at hX
      rw [isDescendant_iff hpost.inv, hpost.recEntry]
      by_cases hXP : X = P
      · exact Or.inr ⟨rfl, hXP ▸ ReflTransGen.refl⟩
      · exact Or.inr ⟨rfl, ReflTransGen.single ⟨hX, hXP⟩⟩

theorem hybrid_not_above_B : ¬ TransGen hybridUnderA.Anc 3 2 := by
  intro h
  rcases TransGen.head'_iff.1 h with ⟨b, hb, _⟩
  have hlt := (BitMatrix.entry_lt reachable_hybridUnderA.invariant.sqRec hb.1).2
  have hall : ∀ b, b < 4 → ¬ hybridUnderA.Anc 3 b := by decide
  exact hall b hlt hb

/-- Witness of C2: Root; A and B under Root; Hybrid under A; then Hybrid under
B. -/
theorem C2_witness_hybrid :
    (Reachable hybridUnderA ∧ getType hybridUnderA "Hybrid" = some 3 ∧
      2 < getNumberOfClasses hybridUnderA ∧ ¬ TransGen hybridUnderA.Anc 3 2) ∧
    ((∃ fuel r, addType fuel 2 "Hybrid" hybridUnderA = .ok r) ∧
      ∀ fuel r, addType fuel 2 "Hybrid" hybridUnderA = .ok r →
        r.code = 3 ∧ getNumberOfClasses r.server = getNumberOfClasses hybridUnderA ∧
        isDescendant r.server 2 3 = some true ∧
        ∀ X, isDescendant hybridUnderA X 2 = some true →
          isDescendant r.server X 3 = some true) :=
  ⟨⟨reachable_hybridUnderA, by decide, by decide, hybrid_not_above_B⟩,
    C2_multiple_inheritance_propagation reachable_hybridUnderA (by decide) (by decide)
      hybrid_not_above_B⟩

/-! ## C3: closure propagation for a new type -/

/-- C3 as stated fails: there is a reachable registry, with `NOTYPE` types, in
which the parent 0 is registered and a name is not, and `addType(0, name)`
returns no code: the 16-bit counter wraps to 0, both matrices are emptied and
the first matrix write is out of range. -/
theorem C3_counterexample_full_registry :
    ∃ s n, Reachable s ∧ getNumberOfClasses s = NOTYPE ∧ getType s n = none ∧
      0 < getNumberOfClasses s ∧
      ∀ fuel, addType fuel 0 n s = .error (.outOfRange (allocate s)) := by
  rcases exists_full_registry with ⟨s, n, hs, hfull, hn, _, hfault⟩
  refine ⟨s, n, hs, hfull, hn, ?_, fun fuel => hfault fuel 0⟩
  show 0 < s.nTypes
  rw [hfull]
  decide

/-- C3, amended: in every reachable registry with fewer than `NOTYPE` types, for
an unregistered name `n` and a registered parent `P`, `addType(P, n)` returns,
and for the returned code `c` `isDescendant(P, c)` holds and `isDescendant(X, c)`
holds for every `X` for which `isDescendant(X, P)` held before the call. -/
theorem C3_new_type_closure_propagation {s : ClassServer} {n : String} {P : Nat}
    (hs : Reachable s) (hroom : getNumberOfClasses s < NOTYPE)
    (hn : getType s n = none) (hP : P < getNumberOfClasses s) :
    (∃ fuel r, addType fuel P n s = .ok r) ∧
    ∀ fuel r, addType fuel P n s = .ok r →
      isDescendant r.server P r.code = some true ∧
      ∀ X, isDescendant s X P = some true → isDescendant r.server X r.code = some true := by
  have hinv := hs.invariant
  constructor
  · rcases addType_new_total hinv hn hroom (Nat.le_of_lt hP) with ⟨F, hF⟩
    rcases hF F le_rfl with ⟨r, hr⟩
    exact ⟨F, r, hr⟩
  · intro fuel r h
    have hpost := addType_new_post hinv hn h
    rw [hpost.code]
    refine ⟨?_, ?_⟩
    · rw [isDescendant_iff hpost.inv, hpost.recEntry]
      exact Or.inr ⟨rfl, Or.inr ReflTransGen.refl⟩
    · intro X hX
      rw [isDescendant_iff hinv] at hX
      rw [isDescendant_iff hpost.inv, hpost.recEntry]
      by_cases hXP : X = P
      · exact Or.inr ⟨rfl, Or.inr (hXP ▸ ReflTransGen.refl)⟩
      · exact Or.inr ⟨rfl, Or.inr (ReflTransGen.single ⟨hX, hXP⟩)⟩

/-- Witness of C3: Root, Child under Root, then GrandChild under Child makes
GrandChild a descendant of every type that Child descends from, Root among
them. -/
theorem C3_witness_grandchild :
    (Reachable rootChild ∧ getNumberOfClasses rootChild < NOTYPE ∧
      getType rootChild "GrandChild" = none ∧ 1 < getNumberOfClasses rootChild) ∧
    ((∃ fuel r, addType fuel 1 "GrandChild" rootChild = .ok r) ∧
      ∀ fuel r, addType fuel 1 "GrandChild" rootChild = .ok r →
        isDescendant r.server 1 r.code = some true ∧
        ∀ X, isDescendant rootChild X 1 = some true →
          isDescendant r.server X r.code = some true) :=
  ⟨⟨reachable_rootChild, by decide, by decide, by decide⟩,
    C3_new_type_closure_propagation reachable_rootChild (by decide) (by decide) (by decide)⟩

/-! ## C4: sequential allocation of codes -/

/-- C4 as stated fails: there is a reachable registry with `k = NOTYPE` types and
an unregistered name for which `addType` returns no code, whatever the parent,
and the count becomes 0 instead of `k + 1`: the 16-bit counter wraps. -/
theorem C4_counterexample_counter_wraps :
    ∃ s n, Reachable s ∧ getNumberOfClasses s = NOTYPE ∧ getType s n = none ∧
      getNumberOfClasses (allocate s) = 0 ∧
      ∀ fuel P, addType fuel P n s = .error (.outOfRange (allocate s)) := by
  rcases exists_full_registry with ⟨s, n, hs, hfull, hn, hzero, hfault⟩
  exact ⟨s, n, hs, hfull, hn, hzero, hfault⟩

/-- C4, amended: in every reachable registry with `k` registered types, `k`
below `NOTYPE`, for an unregistered name `n` and a valid parent (a registered
code, or `k` itself for a root), `addType(parent, n)` returns; it returns
exactly `k`, the number of classes becomes `k + 1`, and afterwards
`getType(n) = k` and `isDefined(n)`. The registry holds exactly `k` distinct
names, so the name registered after `k` distinct names receives code `k`. -/
theorem C4_sequential_code_allocation {s : ClassServer} {n : String} {P : Nat}
    (hs : Reachable s) (hroom : getNumberOfClasses s < NOTYPE)
    (hn : getType s n = none) (hP : P ≤ getNumberOfClasses s) :
    (∃ fuel r, addType fuel P n s = .ok r) ∧
    (∀ fuel r, addType fuel P n s = .ok r →
      r.code = getNumberOfClasses s ∧
      getNumberOfClasses r.server = getNumberOfClasses s + 1 ∧
      getType r.server n = some (getNumberOfClasses s) ∧ isDefined r.server n = true) ∧
    (s.name2CodeMap.map Prod.fst).Nodup ∧
    s.name2CodeMap.length = getNumberOfClasses s := by
  have hinv := hs.invariant
  refine ⟨?_, ?_, hinv.namesNodup, hinv.namesLength⟩
  · rcases addType_new_total hinv hn hroom hP with ⟨F, hF⟩
    rcases hF F le_rfl with ⟨r, hr⟩
    exact ⟨F, r, hr⟩
  · intro fuel r h
    have hpost := addType_new_post hinv hn h
    have hfind : mapFind r.server.name2CodeMap n = some s.nTypes := by
      rw [hpost.name2CodeMap, mapFind_mapAssign]
      simp
    refine ⟨hpost.code, hpost.nTypes, hfind, ?_⟩
    show (mapFind r.server.name2CodeMap n).isSome = true
    rw [hfind]
    rfl

/-- Witness of C4: the first registration on the empty registry returns code 0. -/
theorem C4_witness_first_code :
    (Reachable init ∧ getNumberOfClasses init < NOTYPE ∧ getType init "Root" = none ∧
      0 ≤ getNumberOfClasses init) ∧
    ((∃ fuel r, addType fuel 0 "Root" init = .ok r) ∧
      (∀ fuel r, addType fuel 0 "Root" init = .ok r →
        r.code = 0 ∧ getNumberOfClasses r.server = 0 + 1 ∧
        getType r.server "Root" = some 0 ∧ isDefined r.server "Root" = true) ∧
      (init.name2CodeMap.map Prod.fst).Nodup ∧ init.name2CodeMap.length = 0) :=
  ⟨⟨Reachable.init, by decide, by decide, by decide⟩,
    C4_sequential_code_allocation Reachable.init (by decide) (by decide) (by decide)⟩

open ClassServer Relation

/-! ## C5: factory resolution along the parents -/

theorem reachable_chainWithHooks : Reachable chainWithHooks :=
  Reachable.addFactory 1 (some 11) (Reachable.addFactory 0 (some 10)
    (Reachable.of_bootstrap 3 [(0, "Root"), (0, "Mid"), (1, "Leaf")]
      Reachable.init rfl))

/-- C5, evaluated on the code: on the chain Root -> Mid -> Leaf with factories on
Root and on Mid, `getFactory(Leaf)` does not return the factory of Mid. Leaf has no
factory of its own and has the parent Mid; `getParents` writes that parent
through `parents.begin()` of the empty vector `parents`, outside the vector,
and the loop over `parents` never sees it. -/
theorem C5_parent_factory_not_found :
    Reachable chainWithHooks ∧ getParents chainWithHooks 2 = [1] ∧
    mapFind chainWithHooks._atomFactory 1 = some (some 11) ∧
    ∀ fuel, getFactory (fuel + 1) chainWithHooks 2 0 =
      .error (.outOfRange chainWithHooks) := by
  refine ⟨reachable_chainWithHooks, by decide, by decide, ?_⟩
  intro fuel
  rfl

/-! ## C6: registering the same pair twice -/

theorem addType_again {s : ClassServer} {n : String} {c P : Nat} (hinv : Inv s)
    (hg : getType s n = some c) (hP : P < s.nTypes)
    (hagain : ∀ t : ClassServer, t.recursiveMap = s.recursiveMap → t.nTypes = s.nTypes →
      ∃ F, ∀ f, F ≤ f → setParentRecursively f P c t = .ok t) :
    (∃ fuel r, addType fuel P n s = .ok r) ∧
    ∀ fuel r, addType fuel P n s = .ok r →
      r.code = c ∧ r.server.nTypes = s.nTypes ∧ r.server.recursiveMap = s.recursiveMap := by
  rcases setInheritance_of_square hinv.sqInh hP (hinv.codes n c hg) with ⟨t, h1⟩
  rcases setInheritance_eq h1 with ⟨e1, _, _⟩
  have hrec : t.recursiveMap = s.recursiveMap := by rw [e1]
  have hnt : t.nTypes = s.nTypes := by rw [e1]
  rcases hagain t hrec hnt with ⟨F, hF⟩
  refine ⟨⟨F, _, addType_of_existing hg h1 (hF F le_rfl)⟩, ?_⟩
  intro fuel r h
  rcases addType_cases h with ⟨c', s1, s2, hc', h1', h2, hr⟩ | ⟨hnone, _⟩
  · rw [hg] at hc'
    cases hc'
    rw [h1] at h1'
    cases h1'
    have := setParentRecursively_det h2 (hF F le_rfl)
    subst this
    subst hr
    exact ⟨rfl, hnt, hrec⟩
  · rw [hg] at hnone; cases hnone

/-- C6: in every reachable registry, if `addType(P, n)` returns `c`, then an
immediately following second `addType(P, n)` returns, also returns `c`, does not
change the number of classes and leaves the transitive-closure matrix, hence
every `isDescendant` answer, exactly as it was after the first call. -/
theorem C6_reregistration_idempotent {s : ClassServer} {n : String} {P fuel : Nat}
    {r : AddTypeResult} (hs : Reachable s) (h : addType fuel P n s = .ok r) :
    (∃ fuel2 r2, addType fuel2 P n r.server = .ok r2) ∧
    ∀ fuel2 r2, addType fuel2 P n r.server = .ok r2 →
      r2.code = r.code ∧ getNumberOfClasses r2.server = getNumberOfClasses r.server ∧
      r2.server.recursiveMap = r.server.recursiveMap ∧
      ∀ a b, isDescendant r2.server a b = isDescendant r.server a b := by
  have hinv := hs.invariant
  have key : (∃ fuel2 r2, addType fuel2 P n r.server = .ok r2) ∧
      ∀ fuel2 r2, addType fuel2 P n r.server = .ok r2 →
        r2.code = r.code ∧ r2.server.nTypes = r.server.nTypes ∧
        r2.server.recursiveMap = r.server.recursiveMap := by
    cases hg : getType s n with
    | none =>
      have hpost := addType_new_post hinv hg h
      refine addType_again hpost.inv ?_ ?_ hpost.again
      · show mapFind r.server.name2CodeMap n = some r.code
        rw [hpost.name2CodeMap, mapFind_mapAssign, hpost.code]
        simp
      · rw [hpost.nTypes]
        exact Nat.lt_succ_of_le hpost.parent
    | some c =>
      have hpost := addType_link_post hinv hg h
      refine addType_again hpost.inv ?_ ?_ hpost.again
      · show mapFind r.server.name2CodeMap n = some r.code
        rw [hpost.rest, hpost.code]
        exact hg
      · rw [hpost.rest]
        exact hpost.parent
  refine ⟨key.1, ?_⟩
  intro fuel2 r2 h2
  rcases key.2 fuel2 r2 h2 with ⟨hc, hn, hrec⟩
  refine ⟨hc, hn, hrec, ?_⟩
  intro a b
  unfold isDescendant
  rw [hn, hrec]

/-- Witness of C6: registering Child under Root a second time. -/
theorem C6_witness_child_twice :
    (Reachable rootChild ∧
      addType 3 0 "Child" rootChild = .ok { code := 1, server := rootChild, signals := [] }) ∧
    ((∃ fuel2 r2, addType fuel2 0 "Child" rootChild = .ok r2) ∧
      ∀ fuel2 r2, addType fuel2 0 "Child" rootChild = .ok r2 →
        r2.code = 1 ∧ getNumberOfClasses r2.server = getNumberOfClasses rootChild ∧
        r2.server.recursiveMap = rootChild.recursiveMap ∧
        ∀ a b, isDescendant r2.server a b = isDescendant rootChild a b) :=
  ⟨⟨reachable_rootChild, rfl⟩,
    @C6_reregistration_idempotent rootChild "Child" 0 3
      { code := 1, server := rootChild, signals := [] } reachable_rootChild rfl⟩

/-! ## C7: reflexivity -/

/-- C7: in every reachable registry and for every registered code `T`, the
closure-matrix query `isDescendant(T, T)` and the inheritance-matrix query
`isA_non_recursive(T, T)` are both true. -/
theorem C7_reflexive {s : ClassServer} {T : Nat} (hs : Reachable s)
    (hT : T < getNumberOfClasses s) :
    isDescendant s T T = some true ∧ isA_non_recursive s T T = some true :=
  ⟨(isDescendant_iff hs.invariant T T).2 (hs.invariant.reflRec T hT),
    (isA_non_recursive_iff hs.invariant T T).2 (hs.invariant.reflInh T hT)⟩

/-- Witness of C7: the type Child of the registry with Root and Child. -/
theorem C7_witness_child :
    (Reachable rootChild ∧ 1 < getNumberOfClasses rootChild) ∧
    (isDescendant rootChild 1 1 = some true ∧ isA_non_recursive rootChild 1 1 = some true) :=
  ⟨⟨reachable_rootChild, by decide⟩, C7_reflexive reachable_rootChild (by decide)⟩

/-! ## C8: factory resolution without any factory -/

theorem writeThrough_empty {xs parents : List Nat}
    (h : writeThrough [] 0 xs = some parents) : parents = [] := by
  cases xs with
  | nil =>
    simp only [writeThrough, Option.some.injEq] at h
    exact h.symm
  | cons x rest => simp [writeThrough] at h

theorem searchLevels_result (level : Except Fault (Option AtomFactory)) (depth : Int)
    (hlevel : level = .ok none ∨ ∃ s, level = .error (.outOfRange s)) (count : Nat) :
    ∀ search_depth, searchLevels level depth count search_depth = .ok none ∨
      ∃ s, searchLevels level depth count search_depth = .error (.outOfRange s) := by
  induction count with
  | zero => intro sd; exact Or.inl rfl
  | succ count ih =>
    intro sd
    simp only [searchLevels]
    split
    · exact Or.inl rfl
    · rcases hlevel with h | ⟨s, h⟩
      · subst h
        exact ih (sd + 1)
      · subst h
        exact Or.inr ⟨s, rfl⟩

/-- The search of `getFactory` is bounded: with any positive budget the call
does not run out of it. -/
theorem getFactory_bounded (s : ClassServer) (t fuel : Nat) (depth : Int) :
    getFactory (fuel + 1) s t depth ≠ .error .outOfFuel := by
  simp only [getFactory]
  cases mapFind s._atomFactory t with
  | some fact => simp
  | none =>
    simp only
    have hlevel : ∀ level : Except Fault (Option AtomFactory),
        (level = match writeThrough [] 0 (getParents s t) with
          | none => Except.error (Fault.outOfRange s)
          | some parents => firstFactory (fun p => getFactory fuel s p (depth + 1)) parents) →
        (level = .ok none ∨ ∃ s', level = .error (.outOfRange s')) := by
      intro level hl
      cases hw : writeThrough [] 0 (getParents s t) with
      | none => rw [hw] at hl; exact Or.inr ⟨s, hl⟩
      | some parents =>
        rw [hw] at hl
        have := writeThrough_empty hw
        subst this
        exact Or.inl hl
    rcases searchLevels_result _ (depth + 1) (hlevel _ rfl) (MAX_DEPTH - 1) 1 with h | ⟨s', h⟩
    · rw [h]; simp
    · rw [h]; simp

/-- C8, evaluated on the code: `getFactory` never loops (any positive budget is
enough), but in the registry with Root and Child under Root and no factory at
all, `getFactory(Child)` does not return null: Child has the parent Root, which
`getParents` writes through `parents.begin()` of the empty vector `parents`,
outside the vector. -/
theorem C8_no_factory_faults :
    (∀ (s : ClassServer) (t fuel : Nat) (depth : Int),
      getFactory (fuel + 1) s t depth ≠ .error .outOfFuel) ∧
    Reachable rootChild ∧ rootChild._atomFactory = [] ∧ getParents rootChild 1 = [0] ∧
    ∀ fuel, getFactory (fuel + 1) rootChild 1 0 = .error (.outOfRange rootChild) := by
  refine ⟨getFactory_bounded, reachable_rootChild, rfl, by decide, ?_⟩
  intro fuel
  rfl

/-! ## C9: the factory registered for the type itself -/

/-- C9: for every registry, type `t` and factory `h`, after `addFactory(t, h)` the
call `getFactory(t)` returns `h`, whatever was registered for `t` before and
whatever factories other types have. -/
theorem C9_own_factory_wins (s : ClassServer) (t : Nat) (h : Option AtomFactory)
    (fuel : Nat) (depth : Int) :
    getFactory (fuel + 1) (addFactory t h s) t depth = .ok h := by
  simp [getFactory, addFactory, mapFind_mapAssign]

/-! ## C10: a parent that is not a registered code -/

/-- C10 as stated fails: on the empty registry `addType(5, "X")` does not stop
before writing: when it indexes row 5 of the inheritance matrix, outside the
matrix, the count is already 1, both matrices are already resized and the
inheritance entry of the new type with itself is already set. -/
theorem C10_counterexample_written_before_fault :
    ∃ reached, addType 1 5 "X" init = .error (.outOfRange reached) ∧
      init.inheritanceMap = [] ∧ init.recursiveMap = [] ∧ getNumberOfClasses init = 0 ∧
      reached.inheritanceMap = [[true]] ∧ reached.recursiveMap = [[false]] ∧
      getNumberOfClasses reached = 1 :=
  ⟨{ init with nTypes := 1, inheritanceMap := [[true]], recursiveMap := [[false]] },
    rfl, rfl, rfl, rfl, rfl, rfl, rfl⟩

/-- C10, amended: in every reachable registry, for every name and every parent
code (a value of the 16-bit `Type`) that is neither a registered code nor the
code the call itself would assign, `addType(parent, name)` returns no code: it indexes row `parent` of the
inheritance matrix outside the matrix, without any check. For a registered name
the registry is untouched at that access; for a new name the call has by then
incremented the count, resized both matrices and set the inheritance entry of
the new type with itself. -/
theorem C10_invalid_parent_unchecked {s : ClassServer} (hs : Reachable s) (fuel parent : Nat)
    (name : String) (hcode : parent ≤ NOTYPE) (hinvalid : ¬ parent < getNumberOfClasses s)
    (hself : getType s name = none → parent ≠ getNumberOfClasses s) :
    ∃ reached, addType fuel parent name s = .error (.outOfRange reached) ∧
      (∀ c, getType s name = some c → reached = s) ∧
      (getType s name = none →
        setInheritance s.nTypes s.nTypes (allocate s) = .ok reached ∧
        getNumberOfClasses reached = getNumberOfClasses s + 1 ∧
        reached.recursiveMap = s.recursiveMap.grow (s.nTypes + 1) ∧
        reached.inheritanceMap.entry s.nTypes s.nTypes = some true) := by
  have hinv := hs.invariant
  cases hg : getType s name with
  | some c =>
    refine ⟨s, ?_, fun _ _ => rfl, fun h => by cases h⟩
    have hf : setInheritance parent c s = .error (.outOfRange s) :=
      setInheritance_fault hinv.sqInh (fun h => hinvalid h.1)
    simp [addType, hg, hf]
  | none =>
    have hroom : s.nTypes < NOTYPE := by
      have h1 : ¬ parent < s.nTypes := hinvalid
      have h2 : parent ≠ s.nTypes := hself hg
      omega
    have halloc := allocate_of_room hroom
    rw [halloc]
    have hsqa : (grown s).inheritanceMap.Square (s.nTypes + 1) :=
      BitMatrix.square_grow _ _
    rcases setInheritance_of_square hsqa (Nat.lt_succ_self _) (Nat.lt_succ_self _)
      with ⟨s1, h1⟩
    rcases setInheritance_eq h1 with ⟨e1, ent1, sq1⟩
    have hpar : ¬ (parent < s.nTypes + 1 ∧ s.nTypes < s.nTypes + 1) := by
      have h1 : ¬ parent < s.nTypes := hinvalid
      have h2 : parent ≠ s.nTypes := hself hg
      omega
    have hf : setInheritance parent s.nTypes s1 = .error (.outOfRange s1) :=
      setInheritance_fault (sq1 _ hsqa).1 hpar
    refine ⟨s1, ?_, fun c h => (by cases h), fun _ => ⟨h1, ?_, ?_, ?_⟩⟩
    · simp [addType, hg, halloc, h1, hf]
    · show s1.nTypes = s.nTypes + 1
      rw [e1]; rfl
    · rw [e1]; rfl
    · rw [ent1]; simp

/-- Witness of C10: the parent code 5 on the empty registry. -/
theorem C10_witness_empty_registry :
    (Reachable init ∧ 5 ≤ NOTYPE ∧ ¬ 5 < getNumberOfClasses init ∧
      (getType init "X" = none → 5 ≠ getNumberOfClasses init)) ∧
    ∃ reached, addType 1 5 "X" init = .error (.outOfRange reached) ∧
      (∀ c, getType init "X" = some c → reached = init) ∧
      (getType init "X" = none →
        setInheritance init.nTypes init.nTypes (allocate init) = .ok reached ∧
        getNumberOfClasses reached = getNumberOfClasses init + 1 ∧
        reached.recursiveMap = init.recursiveMap.grow (init.nTypes + 1) ∧
        reached.inheritanceMap.entry init.nTypes init.nTypes = some true) :=
  ⟨⟨Reachable.init, by decide, by decide, fun _ => by decide⟩,
    C10_invalid_parent_unchecked Reachable.init 1 5 "X" (by decide) (by decide)
      (fun _ => by decide)⟩

end OpenCog

namespace OpenCog

open ClassServer Relation

/-! ## The name tables -/

theorem nameTables_init : NameTables init :=
  ⟨fun _ _ => by simp [init, mapFind], fun c hc => absurd hc (Nat.not_lt_zero c)⟩

theorem nameTables_addType {s : ClassServer} {fuel P : Nat} {name : String}
    {r : AddTypeResult} (hinv : Inv s) (ht : NameTables s)
    (h : addType fuel P name s = .ok r) : NameTables r.server := by
  cases hg : getType s name with
  | some c =>
    have hpost := addType_link_post hinv hg h
    have e := hpost.rest
    have h1 : r.server.name2CodeMap = s.name2CodeMap := by rw [e]
    have h2 : r.server.code2NameMap = s.code2NameMap := by rw [e]
    have h3 : r.server.nTypes = s.nTypes := by rw [e]
    exact ⟨by rw [h1, h2]; exact ht.pair, by rw [h2, h3]; exact ht.named⟩
  | none =>
    have hpost := addType_new_post hinv hg h
    have hfresh : mapFind s.code2NameMap s.nTypes = none := by
      cases hf : mapFind s.code2NameMap s.nTypes with
      | none => rfl
      | some m =>
        exact absurd (hinv.codes m s.nTypes ((ht.pair m s.nTypes).2 hf)) (lt_irrefl _)
    have hg' : mapFind s.name2CodeMap name = none := hg
    refine ⟨?_, ?_⟩
    · intro m c
      rw [hpost.name2CodeMap, hpost.code2NameMap, mapFind_mapAssign, mapFind_mapAssign]
      by_cases hm : name = m
      · subst hm
        by_cases hc : s.nTypes = c
        · simp [hc]
        · simp only [hc, if_false, if_true, Option.some.injEq]
          constructor
          · intro e; exact e.elim
          · intro e; rw [(ht.pair name c).2 e] at hg'; cases hg'
      · by_cases hc : s.nTypes = c
        · subst hc
          simp only [hm, if_false, if_true, Option.some.injEq]
          constructor
          · intro e; exact absurd (hinv.codes m s.nTypes e) (lt_irrefl _)
          · intro e; exact e.elim
        · simp only [hm, hc, if_false]
          exact ht.pair m c
    · intro c hc
      rw [hpost.nTypes] at hc
      rw [hpost.code2NameMap, mapFind_mapAssign]
      by_cases hk : s.nTypes = c
      · exact ⟨name, by simp [hk]⟩
      · simp only [hk, if_false]
        exact ht.named c (by omega)

/-- The name tables of every reachable registry agree. -/
theorem Reachable.nameTables {s : ClassServer} (h : Reachable s) : NameTables s := by
  induction h with
  | init => exact nameTables_init
  | addType hs hcall ih => exact nameTables_addType hs.invariant ih hcall
  | addFactory t fact _ ih => exact ⟨ih.pair, ih.named⟩

theorem Registered.reachable {s : ClassServer} {names : List String}
    (h : Registered s names) : Reachable s := by
  induction h with
  | init => exact Reachable.init
  | addType _ hcall ih => exact Reachable.addType ih hcall
  | addFactory t fact _ ih => exact Reachable.addFactory t fact ih

/-- A name that no returning `addType` call was given is in no name table. -/
theorem Registered.not_found {s : ClassServer} {names : List String}
    (h : Registered s names) : ∀ n, n ∉ names → mapFind s.name2CodeMap n = none := by
  induction h with
  | init => intro n _; rfl
  | addType hs hcall ih =>
    rename_i s names fuel parent name r
    intro n hn
    simp only [List.mem_cons, not_or] at hn
    have hinv := hs.reachable.invariant
    cases hg : getType s name with
    | some c =>
      have hpost := addType_link_post hinv hg hcall
      rw [hpost.rest]
      exact ih n hn.2
    | none =>
      have hpost := addType_new_post hinv hg hcall
      rw [hpost.name2CodeMap, mapFind_mapAssign]
      have hne : ¬ name = n := fun e => hn.1 e.symm
      simp only [hne, if_false]
      exact ih n hn.2
  | addFactory t fact _ ih => exact ih

theorem registered_rootChild : Registered rootChild ["Child", "Root"] :=
  @Registered.addType _ ["Root"] 3 0 "Child" _
    (@Registered.addType init [] 3 0 "Root" _ Registered.init rfl) rfl

/-! ## C11: the read path returns sentinels -/

/-- C11: in every reachable registry, `getType(n)` returns `NOTYPE` and
`isDefined(n)` returns false for every name `n` that no `addType` call was given;
`getTypeName(c)` returns the placeholder string for every code `c` not below the
number of classes; `isA_non_recursive(type, parent)` returns false whenever
`type` or `parent` is not below the number of classes, and it returns an answer
for every pair of codes. -/
theorem C11_read_path_sentinels {s : ClassServer} {names : List String}
    (h : Registered s names) :
    (∀ n, n ∉ names → getType s n = none ∧ isDefined s n = false) ∧
    (∀ c, ¬ c < getNumberOfClasses s → getTypeName s c = "*** Unknown Type! ***") ∧
    (∀ type parent, ¬ (type < getNumberOfClasses s ∧ parent < getNumberOfClasses s) →
      isA_non_recursive s type parent = some false) ∧
    (∀ type parent, ∃ b, isA_non_recursive s type parent = some b) := by
  have hs := h.reachable
  have hinv := hs.invariant
  have ht := hs.nameTables
  refine ⟨?_, ?_, ?_, ?_⟩
  · intro n hn
    have := h.not_found n hn
    exact ⟨this, by simp [isDefined, this]⟩
  · intro c hc
    have hnone : mapFind s.code2NameMap c = none := by
      cases hf : mapFind s.code2NameMap c with
      | none => rfl
      | some m => exact absurd (hinv.codes m c ((ht.pair m c).2 hf)) hc
    simp [getTypeName, hnone]
  · intro type parent hout
    have : type ≥ s.nTypes ∨ parent ≥ s.nTypes := by
      have hout' : ¬ (type < s.nTypes ∧ parent < s.nTypes) := hout
      omega
    simp [isA_non_recursive, this]
  · intro type parent
    unfold isA_non_recursive
    split
    · exact ⟨false, rfl⟩
    · rename_i hin
      exact BitMatrix.entry_of_square hinv.sqInh (by omega) (by omega)

/-- Witness of C11: the registry with Root and Child, asked about other names
and codes. -/
theorem C11_witness_root_child :
    Registered rootChild ["Child", "Root"] ∧
    ((∀ n, n ∉ ["Child", "Root"] → getType rootChild n = none ∧ isDefined rootChild n = false) ∧
    (∀ c, ¬ c < getNumberOfClasses rootChild →
      getTypeName rootChild c = "*** Unknown Type! ***") ∧
    (∀ type parent,
      ¬ (type < getNumberOfClasses rootChild ∧ parent < getNumberOfClasses rootChild) →
      isA_non_recursive rootChild type parent = some false) ∧
    (∀ type parent, ∃ b, isA_non_recursive rootChild type parent = some b)) :=
  ⟨registered_rootChild, C11_read_path_sentinels registered_rootChild⟩

/-! ## C12: names and codes -/

/-- C12: in every reachable registry, `getTypeName(getType(n)) = n` for every
registered name `n`, and `getType(getTypeName(c)) = c` for every code `c` below
the number of classes; so two names with the same code are the same name, and
every code below the count is the code of exactly one name. -/
theorem C12_name_code_round_trip {s : ClassServer} (hs : Reachable s) :
    (∀ n c, getType s n = some c → getTypeName s c = n) ∧
    (∀ c, c < getNumberOfClasses s → getType s (getTypeName s c) = some c) ∧
    (∀ n m c, getType s n = some c → getType s m = some c → n = m) ∧
    (∀ c, c < getNumberOfClasses s → ∃! n, getType s n = some c) := by
  have hinv := hs.invariant
  have ht := hs.nameTables
  have h1 : ∀ n c, getType s n = some c → getTypeName s c = n := by
    intro n c hn
    have := (ht.pair n c).1 hn
    simp [getTypeName, this]
  have h2 : ∀ c, c < s.nTypes → getType s (getTypeName s c) = some c := by
    intro c hc
    rcases ht.named c hc with ⟨n, hn⟩
    have : getTypeName s c = n := by simp [getTypeName, hn]
    rw [this]
    exact (ht.pair n c).2 hn
  have h3 : ∀ n m c, getType s n = some c → getType s m = some c → n = m := by
    intro n m c hn hm
    rw [← h1 n c hn, ← h1 m c hm]
  refine ⟨h1, h2, h3, ?_⟩
  intro c hc
  exact ⟨getTypeName s c, h2 c hc, fun m hm => (h1 m c hm).symm⟩

/-- Witness of C12: the registry with Root and Child. -/
theorem C12_witness_root_child :
    Reachable rootChild ∧
    ((∀ n c, getType rootChild n = some c → getTypeName rootChild c = n) ∧
    (∀ c, c < getNumberOfClasses rootChild →
      getType rootChild (getTypeName rootChild c) = some c) ∧
    (∀ n m c, getType rootChild n = some c → getType rootChild m = some c → n = m) ∧
    (∀ c, c < getNumberOfClasses rootChild → ∃! n, getType rootChild n = some c)) :=
  ⟨reachable_rootChild, C12_name_code_round_trip reachable_rootChild⟩

end OpenCog

namespace OpenCog

open ClassServer Relation

/-! ## C13: the matrices only grow -/

theorem addType_entries_grow {s : ClassServer} {fuel P : Nat} {n : String}
    {r : AddTypeResult} (hinv : Inv s) (h : addType fuel P n s = .ok r) :
    (∀ a b, s.recursiveMap.entry a b = some true →
      r.server.recursiveMap.entry a b = some true) ∧
    (∀ a b, s.inheritanceMap.entry a b = some true →
      r.server.inheritanceMap.entry a b = some true) ∧
    s.nTypes ≤ r.server.nTypes ∧ Inv r.server := by
  cases hg : getType s n with
  | none =>
    have hpost := addType_new_post hinv hg h
    exact ⟨fun a b hab => (hpost.recEntry a b).2 (Or.inl hab),
      fun a b hab => (hpost.inhEntry a b).2 (Or.inl hab),
      by rw [hpost.nTypes]; exact Nat.le_succ _, hpost.inv⟩
  | some c =>
    have hpost := addType_link_post hinv hg h
    exact ⟨fun a b hab => (hpost.recEntry a b).2 (Or.inl hab),
      fun a b hab => (hpost.inhEntry a b).2 (Or.inl hab),
      by rw [hpost.rest], hpost.inv⟩

/-- C13: for every reachable registry and every `addType` call that returns,
every pair for which `isDescendant` was true before the call is still true after
it, every `isA_non_recursive` answer that was true stays true, and the number of
classes does not decrease. -/
theorem C13_monotone_growth {s : ClassServer} {fuel P : Nat} {n : String}
    {r : AddTypeResult} (hs : Reachable s) (h : addType fuel P n s = .ok r) :
    (∀ a b, isDescendant s a b = some true → isDescendant r.server a b = some true) ∧
    (∀ t p, isA_non_recursive s t p = some true →
      isA_non_recursive r.server t p = some true) ∧
    getNumberOfClasses s ≤ getNumberOfClasses r.server := by
  have hinv := hs.invariant
  rcases addType_entries_grow hinv h with ⟨hrec, hinh, hn, hinv'⟩
  refine ⟨?_, ?_, hn⟩
  · intro a b hab
    rw [isDescendant_iff hinv] at hab
    rw [isDescendant_iff hinv']
    exact hrec a b hab
  · intro t p htp
    rw [isA_non_recursive_iff hinv] at htp
    rw [isA_non_recursive_iff hinv']
    exact hinh p t htp

/-- Witness of C13: registering GrandChild under Child in the registry with Root
and Child. -/
theorem C13_witness_grandchild :
    (Reachable rootChild ∧
      addType 3 1 "GrandChild" rootChild =
        .ok { code := 2, server := grandChain, signals := [(2, grandChain)] }) ∧
    ((∀ a b, isDescendant rootChild a b = some true →
        isDescendant grandChain a b = some true) ∧
      (∀ t p, isA_non_recursive rootChild t p = some true →
        isA_non_recursive grandChain t p = some true) ∧
      getNumberOfClasses rootChild ≤ getNumberOfClasses grandChain) :=
  ⟨⟨reachable_rootChild, rfl⟩,
    @C13_monotone_growth rootChild 3 1 "GrandChild"
      { code := 2, server := grandChain, signals := [(2, grandChain)] }
      reachable_rootChild rfl⟩

theorem reachable_grandChain : Reachable grandChain :=
  Reachable.of_bootstrap 3 [(0, "Root"), (0, "Child"), (1, "GrandChild")] Reachable.init rfl

/-! ## C16: what the inheritance matrix holds -/

/-- C16 as stated fails: in the reachable registry with Root, Child under Root
and GrandChild under Child, GrandChild is a descendant of Root in the closure
matrix, but the inheritance-matrix query `isA_non_recursive(GrandChild, Root)`
is false. -/
theorem C16_counterexample_grandparent_not_recorded :
    Reachable grandChain ∧ isDescendant grandChain 0 2 = some true ∧
    isA_non_recursive grandChain 2 0 = some false :=
  ⟨reachable_grandChain, by decide, by decide⟩

/-- C16, amended: the inheritance matrix holds the self entries and the direct
links only. In every reachable registry, a returning `addType(P, n)` with code
`c` makes `isA_non_recursive(c, P)` and `isA_non_recursive(c, c)` true, and
these are the only answers of `isA_non_recursive` that it changes. -/
theorem C16_inheritance_matrix_direct_links {s : ClassServer} {fuel P : Nat} {n : String}
    {r : AddTypeResult} (hs : Reachable s) (h : addType fuel P n s = .ok r) :
    isA_non_recursive r.server r.code P = some true ∧
    isA_non_recursive r.server r.code r.code = some true ∧
    ∀ child parent, isA_non_recursive r.server child parent = some true ↔
      (isA_non_recursive s child parent = some true ∨
        (child = r.code ∧ (parent = P ∨ parent = r.code))) := by
  have hinv := hs.invariant
  have key : Inv r.server ∧ ∀ child parent,
      r.server.inheritanceMap.entry parent child = some true ↔
        (s.inheritanceMap.entry parent child = some true ∨
          (child = r.code ∧ (parent = P ∨ parent = r.code))) := by
    cases hg : getType s n with
    | none =>
      have hpost := addType_new_post hinv hg h
      refine ⟨hpost.inv, fun child parent => ?_⟩
      rw [hpost.inhEntry, hpost.code]
      constructor
      · rintro (h | ⟨hb, ha | ha⟩)
        · exact Or.inl h
        · exact Or.inr ⟨hb, Or.inr ha⟩
        · exact Or.inr ⟨hb, Or.inl ha⟩
      · rintro (h | ⟨hb, ha | ha⟩)
        · exact Or.inl h
        · exact Or.inr ⟨hb, Or.inr ha⟩
        · exact Or.inr ⟨hb, Or.inl ha⟩
    | some c =>
      have hpost := addType_link_post hinv hg h
      refine ⟨hpost.inv, fun child parent => ?_⟩
      rw [hpost.inhEntry, hpost.code]
      constructor
      · rintro (h | ⟨ha, hb⟩)
        · exact Or.inl h
        · exact Or.inr ⟨hb, Or.inl ha⟩
      · rintro (h | ⟨hb, ha | ha⟩)
        · exact Or.inl h
        · exact Or.inr ⟨ha, hb⟩
        · subst ha; subst hb
          exact Or.inl (hinv.reflInh _ (hinv.codes n _ hg))
  rcases key with ⟨hinv', hentry⟩
  refine ⟨?_, ?_, ?_⟩
  · rw [isA_non_recursive_iff hinv', hentry]
    exact Or.inr ⟨rfl, Or.inl rfl⟩
  · rw [isA_non_recursive_iff hinv', hentry]
    exact Or.inr ⟨rfl, Or.inr rfl⟩
  · intro child parent
    rw [isA_non_recursive_iff hinv', isA_non_recursive_iff hinv, hentry]

/-- Witness of C16: registering GrandChild under Child. -/
theorem C16_witness_grandchild :
    (Reachable rootChild ∧
      addType 3 1 "GrandChild" rootChild =
        .ok { code := 2, server := grandChain, signals := [(2, grandChain)] }) ∧
    (isA_non_recursive grandChain 2 1 = some true ∧
      isA_non_recursive grandChain 2 2 = some true ∧
      ∀ child parent, isA_non_recursive grandChain child parent = some true ↔
        (isA_non_recursive rootChild child parent = some true ∨
          (child = 2 ∧ (parent = 1 ∨ parent = 2)))) :=
  ⟨⟨reachable_rootChild, rfl⟩,
    @C16_inheritance_matrix_direct_links rootChild 3 1 "GrandChild"
      { code := 2, server := grandChain, signals := [(2, grandChain)] }
      reachable_rootChild rfl⟩

/-! ## C20: the inheritance matrix is contained in the closure matrix -/

/-- Every entry of the inheritance matrix of a reachable registry is an entry of
its closure matrix. -/
theorem Reachable.inheritance_in_closure {s : ClassServer} (h : Reachable s) :
    ∀ a b, s.inheritanceMap.entry a b = some true → s.recursiveMap.entry a b = some true := by
  induction h with
  | init => intro a b hab; simp [ClassServer.init, BitMatrix.entry] at hab
  | addFactory t fact _ ih => exact ih
  | addType hs hcall ih =>
    rename_i s fuel parent name r
    have hinv := hs.invariant
    intro a b hab
    cases hg : getType s name with
    | none =>
      have hpost := addType_new_post hinv hg hcall
      rw [hpost.recEntry]
      rcases (hpost.inhEntry a b).1 hab with h | ⟨hb, ha | ha⟩
      · exact Or.inl (ih a b h)
      · exact Or.inr ⟨hb, Or.inl ha⟩
      · exact Or.inr ⟨hb, Or.inr (ha ▸ ReflTransGen.refl)⟩
    | some c =>
      have hpost := addType_link_post hinv hg hcall
      rw [hpost.recEntry]
      rcases (hpost.inhEntry a b).1 hab with h | ⟨ha, hb⟩
      · exact Or.inl (ih a b h)
      · exact Or.inr ⟨hb, ha ▸ ReflTransGen.refl⟩

/-- C20: in every reachable registry and for all codes `type` and `parent`, if
the inheritance-matrix query `isA_non_recursive(type, parent)` is true then the
closure-matrix query `isDescendant(parent, type)` is true. -/
theorem C20_inheritance_within_closure {s : ClassServer} (hs : Reachable s)
    (type parent : Nat) (h : isA_non_recursive s type parent = some true) :
    isDescendant s parent type = some true := by
  rw [isA_non_recursive_iff hs.invariant] at h
  rw [isDescendant_iff hs.invariant]
  exact hs.inheritance_in_closure parent type h

/-- Witness of C20: GrandChild and its direct parent Child. -/
theorem C20_witness_grandchild :
    (Reachable grandChain ∧ isA_non_recursive grandChain 2 1 = some true) ∧
    isDescendant grandChain 1 2 = some true :=
  ⟨⟨reachable_grandChain, by decide⟩,
    C20_inheritance_within_closure reachable_grandChain 2 1 (by decide)⟩

end OpenCog

namespace OpenCog

open ClassServer Relation

/-! ## C15: termination of the closure propagation -/

/-- A loop fails only with a fault that one of its iterations produces. -/
theorem forEachM_error {σ : Type} {body : Nat → σ → Except Fault σ} (I : σ → Prop)
    (Q : Fault → Prop) {l : List Nat}
    (hstep : ∀ i ∈ l, ∀ s s', I s → body i s = .ok s' → I s')
    (hbad : ∀ i ∈ l, ∀ s e, I s → body i s = .error e → Q e)
    {s : σ} {e : Fault} (h0 : I s) (h : forEachM body l s = .error e) : Q e := by
  induction l generalizing s with
  | nil => simp [forEachM] at h
  | cons i rest ih =>
    simp only [forEachM] at h
    cases hb : body i s with
    | error e' =>
      simp only [hb, Except.error.injEq] at h
      exact h ▸ hbad i (List.mem_cons_self _ _) s e' h0 hb
    | ok s1 =>
      simp only [hb] at h
      exact ih (fun j hj => hstep j (List.mem_cons_of_mem _ hj))
        (fun j hj => hbad j (List.mem_cons_of_mem _ hj))
        (hstep i (List.mem_cons_self _ _) s s1 h0 hb) h

/-- On a square closure matrix and with codes below its size,
`setParentRecursively` indexes no vector out of range: it can only fail by
exhausting its budget. -/
theorem setParentRecursively_in_range {n c : Nat} (hc : c < n) (fuel : Nat) :
    ∀ (p : Nat) (s : ClassServer) (e : Fault), s.recursiveMap.Square n → s.nTypes = n →
      p < n → setParentRecursively fuel p c s = .error e → e = .outOfFuel := by
  induction fuel with
  | zero =>
    intro p s e _ _ _ h
    simp only [setParentRecursively, Except.error.injEq] at h
    exact h.symm
  | succ fuel ih =>
    intro p s e hsq hn hp h
    simp only [setParentRecursively] at h
    rcases setRecursive_of_square hsq hp hc with ⟨s1, h1⟩
    simp only [h1] at h
    have hext1 := (setRecursive_ext h1).1
    have hn1 : s1.nTypes = n := by rw [hext1.nTypes_eq, hn]
    rw [hn1] at h
    refine forEachM_error (fun t => Ext c s1 t) (fun e => e = .outOfFuel) ?_ ?_
      (Ext.refl c s1) h
    · intro i _ t t' ht hbody
      cases hr : t.recursiveMap.entry i p with
      | none => simp [hr] at hbody
      | some b =>
        simp only [hr] at hbody
        split at hbody
        · exact ht.trans (setParentRecursively_ext fuel i c t t' hbody).1
        · simp only [Except.ok.injEq] at hbody
          exact hbody ▸ ht
    · intro i hi t e' ht hbody
      have hsqt : t.recursiveMap.Square n := ht.square n (hext1.square n hsq)
      have hin : i < n := List.mem_range.1 hi
      rcases BitMatrix.entry_of_square hsqt hin hp with ⟨b, hb⟩
      simp only [hb] at hbody
      split at hbody
      · exact ih i t e' hsqt (by rw [ht.nTypes_eq, hn1]) hin hbody
      · cases hbody

/-- Linking a registered type under a type that it is above exhausts every
budget. -/
theorem addType_link_exhausts {s : ClassServer} {n : String} {c P : Nat} (hinv : Inv s)
    (hg : getType s n = some c) (hP : P < s.nTypes) (hcyc : TransGen s.Anc c P)
    (fuel : Nat) : addType fuel P n s = .error .outOfFuel := by
  have hc := hinv.codes n c hg
  rcases setInheritance_of_square hinv.sqInh hP hc with ⟨s1, h1⟩
  rcases setInheritance_eq h1 with ⟨e1, _, _⟩
  have hrec1 : s1.recursiveMap = s.recursiveMap := by rw [e1]
  have hn1 : s1.nTypes = s.nTypes := by rw [e1]
  cases hres : addType fuel P n s with
  | ok r => exact absurd hcyc (addType_link_post hinv hg hres).noCycle
  | error e =>
    simp only [addType, hg, h1] at hres
    cases h2 : setParentRecursively fuel P c s1 with
    | ok s2 => simp [h2] at hres
    | error e2 =>
      simp only [h2, Except.error.injEq] at hres
      have := setParentRecursively_in_range hc fuel P s1 e2
        (by rw [hrec1]; exact hinv.sqRec) hn1 hP h2
      rw [← hres, this]

/-- C15 as stated fails: in the reachable registry with Root, Child under Root
and GrandChild under Child, the name "Root" is registered and GrandChild is a
registered parent code, yet `addType(GrandChild, "Root")` does not terminate:
it exhausts every recursion budget. -/
theorem C15_counterexample_link_root_under_grandchild :
    Reachable grandChain ∧ getType grandChain "Root" = some 0 ∧
    2 < getNumberOfClasses grandChain ∧
    ∀ fuel, addType fuel 2 "Root" grandChain = .error .outOfFuel :=
  ⟨reachable_grandChain, by decide, by decide,
    @addType_link_exhausts grandChain "Root" 0 2 reachable_grandChain.invariant
      (by decide) (by decide) (TransGen.single ⟨by decide, by decide⟩)⟩

/-- C15, amended: in every reachable registry and for every registered parent
`P`, `addType(P, n)` terminates for every name `n` that is not registered: it
returns when fewer than `NOTYPE` types are registered, and with `NOTYPE` types
it stops at its first matrix write, out of range after the counter has wrapped,
before any recursion. For a name registered with code `c` it terminates, and
returns, when `c` is not above `P` along a chain of closure-matrix ancestor
links, and when `c` is above `P` it exhausts every recursion budget. -/
theorem C15_termination_of_propagation {s : ClassServer} {n : String} {P : Nat}
    (hs : Reachable s) (hP : P < getNumberOfClasses s) :
    (getType s n = none →
      (getNumberOfClasses s < NOTYPE → ∃ fuel r, addType fuel P n s = .ok r) ∧
      (¬ getNumberOfClasses s < NOTYPE →
        ∀ fuel, addType fuel P n s = .error (.outOfRange (allocate s)))) ∧
    ∀ c, getType s n = some c →
      (¬ TransGen s.Anc c P → ∃ fuel r, addType fuel P n s = .ok r) ∧
      (TransGen s.Anc c P → ∀ fuel, addType fuel P n s = .error .outOfFuel) := by
  have hinv := hs.invariant
  refine ⟨?_, ?_⟩
  · intro hn
    refine ⟨?_, ?_⟩
    · intro hroom
      rcases addType_new_total hinv hn hroom (Nat.le_of_lt hP) with ⟨F, hF⟩
      rcases hF F le_rfl with ⟨r, hr⟩
      exact ⟨F, r, hr⟩
    · intro hfull fuel
      have hb : s.nTypes ≤ NOTYPE := hinv.bound
      have hnl : ¬ s.nTypes < NOTYPE := hfull
      exact addType_full_faults hn (by omega) fuel P
  · intro c hn
    refine ⟨?_, fun hcyc fuel => addType_link_exhausts hinv hn hP hcyc fuel⟩
    intro hno
    rcases addType_link_total hinv hn hP hno with ⟨F, hF⟩
    rcases hF F le_rfl with ⟨r, hr⟩
    exact ⟨F, r, hr⟩

/-- Witness of C15: the parent GrandChild in the registry with Root, Child and
GrandChild. -/
theorem C15_witness_grandchild_parent :
    (Reachable grandChain ∧ 2 < getNumberOfClasses grandChain) ∧
    ((getType grandChain "Leaf" = none →
        (getNumberOfClasses grandChain < NOTYPE →
          ∃ fuel r, addType fuel 2 "Leaf" grandChain = .ok r) ∧
        (¬ getNumberOfClasses grandChain < NOTYPE →
          ∀ fuel, addType fuel 2 "Leaf" grandChain = .error (.outOfRange (allocate grandChain)))) ∧
      ∀ c, getType grandChain "Leaf" = some c →
        (¬ TransGen grandChain.Anc c 2 → ∃ fuel r, addType fuel 2 "Leaf" grandChain = .ok r) ∧
        (TransGen grandChain.Anc c 2 →
          ∀ fuel, addType fuel 2 "Leaf" grandChain = .error .outOfFuel)) :=
  ⟨⟨reachable_grandChain, by decide⟩,
    C15_termination_of_propagation reachable_grandChain (by decide)⟩

/-! ## C17: a new type is above nothing but itself -/

/-- C17 as stated fails: there is a reachable registry, with `NOTYPE` types, and an
unregistered name for which `addType` with any valid parent yields no new
type at all: every call stops at an out-of-range matrix access after the 16-bit
counter has wrapped to 0. -/
theorem C17_counterexample_no_new_type :
    ∃ s n, Reachable s ∧ getNumberOfClasses s = NOTYPE ∧ getType s n = none ∧
      ∀ fuel P, P ≤ getNumberOfClasses s → ∀ r, addType fuel P n s ≠ .ok r := by
  rcases exists_full_registry with ⟨s, n, hs, hfull, hn, _, hfault⟩
  refine ⟨s, n, hs, hfull, hn, ?_⟩
  intro fuel P _ r h
  rw [hfault fuel P] at h
  cases h

/-- C17, amended: in every reachable registry with fewer than `NOTYPE` types, for
an unregistered name `n` and a valid parent `P`, `addType(P, n)` returns, and
for the returned code `c` `isDescendant(c, X)` is false for every code `X`
other than `c`. -/
theorem C17_new_type_above_nothing {s : ClassServer} {n : String} {P : Nat}
    (hs : Reachable s) (hroom : getNumberOfClasses s < NOTYPE)
    (hn : getType s n = none) (hP : P ≤ getNumberOfClasses s) :
    (∃ fuel r, addType fuel P n s = .ok r) ∧
    ∀ fuel r, addType fuel P n s = .ok r →
      ∀ X, X ≠ r.code → isDescendant r.server r.code X = some false := by
  have hinv := hs.invariant
  constructor
  · rcases addType_new_total hinv hn hroom hP with ⟨F, hF⟩
    rcases hF F le_rfl with ⟨r, hr⟩
    exact ⟨F, r, hr⟩
  · intro fuel r h X hX
    have hpost := addType_new_post hinv hn h
    rw [hpost.code] at hX ⊢
    unfold isDescendant
    split
    · rfl
    · rename_i hin
      have hsq := hpost.inv.sqRec
      rcases BitMatrix.entry_of_square hsq (i := s.nTypes) (j := X) (by omega) (by omega)
        with ⟨b, hb⟩
      cases b with
      | false => exact hb
      | true =>
        exfalso
        rcases (hpost.recEntry s.nTypes X).1 hb with h | ⟨hx, _⟩
        · exact absurd (BitMatrix.entry_lt hinv.sqRec h).1 (lt_irrefl _)
        · exact hX hx

theorem reachable_rootOnly : Reachable rootOnly :=
  Reachable.of_bootstrap 3 [(0, "Root")] Reachable.init rfl

/-- Witness of C17: after Root, registering Child under Root leaves
`isDescendant(Child, X)` false for every `X` other than Child, Root among
them. -/
theorem C17_witness_child_under_root :
    (Reachable rootOnly ∧ getNumberOfClasses rootOnly < NOTYPE ∧
      getType rootOnly "Child" = none ∧ 0 ≤ getNumberOfClasses rootOnly) ∧
    ((∃ fuel r, addType fuel 0 "Child" rootOnly = .ok r) ∧
      ∀ fuel r, addType fuel 0 "Child" rootOnly = .ok r →
        ∀ X, X ≠ r.code → isDescendant r.server r.code X = some false) :=
  ⟨⟨reachable_rootOnly, by decide, by decide, by decide⟩,
    C17_new_type_above_nothing reachable_rootOnly (by decide) (by decide) (by decide)⟩

end OpenCog

namespace OpenCog

open ClassServer Relation

/-! ## C18: the add-type signal -/

/-- What every returning `addType` call emits, in any registry: nothing for a
registered name, and for a new name one signal with the returned code, on the
registry that the call returns and that already holds the new type. -/
theorem addType_signals {s : ClassServer} {fuel P : Nat} {n : String}
    {r : AddTypeResult} (h : addType fuel P n s = .ok r) :
    (∀ c, getType s n = some c → r.code = c ∧ r.signals = []) ∧
    (getType s n = none →
      r.signals = [(r.code, r.server)] ∧
      getType r.server n = some r.code ∧ isDefined r.server n = true ∧
      getTypeName r.server r.code = n ∧ r.code < getNumberOfClasses r.server ∧
      isDescendant r.server r.code r.code = some true ∧
      isA_non_recursive r.server r.code r.code = some true) := by
  rcases addType_cases h with ⟨c', s1, s2, hc', _, _, hr⟩ | ⟨hnone, s1, s2, s3, s4, h1, h2, h3, h4, hr⟩
  · refine ⟨?_, fun hn => (by rw [hn] at hc'; cases hc')⟩
    intro c hc
    rw [hc] at hc'
    cases hc'
    subst hr
    exact ⟨rfl, rfl⟩
  · refine ⟨fun c hc => (by rw [hc] at hnone; cases hnone), fun _ => ?_⟩
    rw [allocate_of_room (room_of_first_write h1)] at h1
    rcases setInheritance_eq h1 with ⟨e1, ent1, _⟩
    rcases setInheritance_eq h2 with ⟨e2, ent2, _⟩
    rcases setRecursive_ext h3 with ⟨hE3, hkk3⟩
    rcases setParentRecursively_ext fuel P s.nTypes s3 s4 h4 with ⟨hE4, _⟩
    have hn4 : s4.nTypes = s.nTypes + 1 := by
      rw [hE4.nTypes_eq, hE3.nTypes_eq, e2, e1]; rfl
    have hrec4 : s4.recursiveMap.entry s.nTypes s.nTypes = some true := hE4.mono hkk3
    have hinh4 : s4.inheritanceMap.entry s.nTypes s.nTypes = some true := by
      rw [hE4.inheritanceMap_eq, hE3.inheritanceMap_eq, ent2, ent1]
      simp
    have hfind : mapFind (recordName n s.nTypes s4).name2CodeMap n = some s.nTypes := by
      show mapFind (mapAssign s4.name2CodeMap n s.nTypes) n = _
      rw [mapFind_mapAssign]; simp
    have hname : mapFind (recordName n s.nTypes s4).code2NameMap s.nTypes = some n := by
      show mapFind (mapAssign s4.code2NameMap s.nTypes n) s.nTypes = _
      rw [mapFind_mapAssign]; simp
    subst hr
    refine ⟨rfl, hfind, ?_, ?_, ?_, ?_, ?_⟩
    · show (mapFind (recordName n s.nTypes s4).name2CodeMap n).isSome = true
      rw [hfind]; rfl
    · show (match mapFind (recordName n s.nTypes s4).code2NameMap s.nTypes with
        | some name => name
        | none => "*** Unknown Type! ***") = n
      rw [hname]
    · show s.nTypes < s4.nTypes
      rw [hn4]; exact Nat.lt_succ_self _
    · show (if s.nTypes ≥ s4.nTypes ∨ s.nTypes ≥ s4.nTypes then some false
        else s4.recursiveMap.entry s.nTypes s.nTypes) = some true
      rw [hn4, hrec4]
      simp
    · show (if s.nTypes ≥ s4.nTypes ∨ s.nTypes ≥ s4.nTypes then some false
        else s4.inheritanceMap.entry s.nTypes s.nTypes) = some true
      rw [hn4, hinh4]
      simp

/-- C18 as stated fails: in the registry with Root alone the name "Y" is not
registered, yet `addType(7, "Y")` emits no event, because it returns nothing: it
stops at the out-of-range row 7 of the inheritance matrix. The same happens for
every parent in a reachable registry with `NOTYPE` types, where the 16-bit
counter wraps. -/
theorem C18_counterexample_no_event :
    (getType rootOnly "Y" = none ∧
      ∀ fuel, addType fuel 7 "Y" rootOnly =
        .error (.outOfRange { rootOnly with
          nTypes := 2
          inheritanceMap := [[true, false], [false, true]]
          recursiveMap := [[true, false], [false, false]] })) ∧
    ∃ s n, Reachable s ∧ getNumberOfClasses s = NOTYPE ∧ getType s n = none ∧
      ∀ fuel P, addType fuel P n s = .error (.outOfRange (allocate s)) := by
  refine ⟨⟨by decide, fun fuel => rfl⟩, ?_⟩
  rcases exists_full_registry with ⟨s, n, hs, hfull, hn, _, hfault⟩
  exact ⟨s, n, hs, hfull, hn, hfault⟩

/-- C18, amended: in every reachable registry with fewer than `NOTYPE` types,
`addType` with a valid parent on a name that was not registered returns; every
returning call on such a name emits exactly one add-type signal, which carries
the returned code and is emitted on the registry that the call returns, in
which the name table, the count and both matrices already contain the new type.
In every registry a call on a registered name emits no signal, and in a
reachable registry it returns when the parent is registered and the type is
not above it. -/
theorem C18_registration_events {s : ClassServer} {n : String} {P : Nat} :
    (Reachable s → getType s n = none → getNumberOfClasses s < NOTYPE →
      P ≤ getNumberOfClasses s → ∃ fuel r, addType fuel P n s = .ok r) ∧
    (Reachable s → ∀ c, getType s n = some c → P < getNumberOfClasses s →
      ¬ TransGen s.Anc c P → ∃ fuel r, addType fuel P n s = .ok r) ∧
    ∀ fuel r, addType fuel P n s = .ok r →
      (∀ c, getType s n = some c → r.code = c ∧ r.signals = []) ∧
      (getType s n = none →
        r.signals = [(r.code, r.server)] ∧
        getType r.server n = some r.code ∧ isDefined r.server n = true ∧
        getTypeName r.server r.code = n ∧ r.code < getNumberOfClasses r.server ∧
        isDescendant r.server r.code r.code = some true ∧
        isA_non_recursive r.server r.code r.code = some true) := by
  refine ⟨?_, ?_, fun fuel r h => addType_signals h⟩
  · intro hs hn hroom hP
    rcases addType_new_total hs.invariant hn hroom hP with ⟨F, hF⟩
    rcases hF F le_rfl with ⟨r, hr⟩
    exact ⟨F, r, hr⟩
  · intro hs c hn hP hno
    rcases addType_link_total hs.invariant hn hP hno with ⟨F, hF⟩
    rcases hF F le_rfl with ⟨r, hr⟩
    exact ⟨F, r, hr⟩

/-- Witness of C18: registering GrandChild under Child returns and emits one
signal, with the code 2, on the registry that already holds GrandChild. -/
theorem C18_witness_grandchild :
    (Reachable rootChild ∧ getType rootChild "GrandChild" = none ∧
      getNumberOfClasses rootChild < NOTYPE ∧ 1 ≤ getNumberOfClasses rootChild ∧
      addType 3 1 "GrandChild" rootChild =
        .ok { code := 2, server := grandChain, signals := [(2, grandChain)] }) ∧
    (∃ fuel r, addType fuel 1 "GrandChild" rootChild = .ok r) ∧
    ((∀ c, getType rootChild "GrandChild" = some c →
        (2 : Nat) = c ∧ [(2, grandChain)] = ([] : List (Nat × ClassServer))) ∧
      (getType rootChild "GrandChild" = none →
        [(2, grandChain)] = [(2, grandChain)] ∧
        getType grandChain "GrandChild" = some 2 ∧ isDefined grandChain "GrandChild" = true ∧
        getTypeName grandChain 2 = "GrandChild" ∧ 2 < getNumberOfClasses grandChain ∧
        isDescendant grandChain 2 2 = some true ∧
        isA_non_recursive grandChain 2 2 = some true)) :=
  ⟨⟨reachable_rootChild, by decide, by decide, by decide, rfl⟩,
    (@C18_registration_events rootChild "GrandChild" 1).1 reachable_rootChild (by decide)
      (by decide) (by decide),
    (@C18_registration_events rootChild "GrandChild" 1).2.2 3
      { code := 2, server := grandChain, signals := [(2, grandChain)] } rfl⟩

/-! ## C19: the frame of a new registration -/

theorem option_bool_eq_of_true_iff {x y : Option Bool} {b b' : Bool} (hx : x = some b)
    (hy : y = some b') (h : y = some true ↔ x = some true) : y = x := by
  subst hx; subst hy
  cases b <;> cases b' <;> simp at h ⊢

/-- C19: in every reachable registry with `k` types, a returning `addType` call on
an unregistered name changes no answer about the types that existed: for all
codes `A`, `B` below `k`, `isDescendant(A, B)` and `isA_non_recursive(B, A)` are
the same before and after, `getType(m)` is unchanged for every registered name
`m`, `getTypeName(A)` is unchanged, and the factory table is unchanged. -/
theorem C19_frame_of_new_registration {s : ClassServer} {fuel P : Nat} {n : String}
    {r : AddTypeResult} (hs : Reachable s) (hn : getType s n = none)
    (h : addType fuel P n s = .ok r) :
    (∀ A B, A < getNumberOfClasses s → B < getNumberOfClasses s →
      isDescendant r.server A B = isDescendant s A B ∧
      isA_non_recursive r.server B A = isA_non_recursive s B A) ∧
    (∀ m c, getType s m = some c → getType r.server m = some c) ∧
    (∀ A, A < getNumberOfClasses s → getTypeName r.server A = getTypeName s A) ∧
    r.server._atomFactory = s._atomFactory := by
  have hinv := hs.invariant
  have hpost := addType_new_post hinv hn h
  have hinv' := hpost.inv
  refine ⟨?_, ?_, ?_, hpost.atomFactory⟩
  · intro A B hA hB
    have hA' : A < s.nTypes := hA
    have hB' : B < s.nTypes := hB
    have hsqr : r.server.recursiveMap.Square (s.nTypes + 1) := hpost.nTypes ▸ hinv'.sqRec
    have hsqi : r.server.inheritanceMap.Square (s.nTypes + 1) := hpost.nTypes ▸ hinv'.sqInh
    have hbs : ¬ (B ≥ s.nTypes ∨ A ≥ s.nTypes) := by omega
    have hbr : ¬ (B ≥ r.server.nTypes ∨ A ≥ r.server.nTypes) := by
      rw [hpost.nTypes]; omega
    have hBk : B ≠ s.nTypes := by omega
    constructor
    · unfold isDescendant
      simp only [hbs, hbr, if_false]
      rcases BitMatrix.entry_of_square hinv.sqRec hA' hB' with ⟨b, hb⟩
      rcases BitMatrix.entry_of_square hsqr (i := A) (j := B) (by omega) (by omega)
        with ⟨b', hb'⟩
      refine option_bool_eq_of_true_iff hb hb' ?_
      rw [hpost.recEntry]
      simp [hBk]
    · unfold isA_non_recursive
      simp only [hbs, hbr, if_false]
      rcases BitMatrix.entry_of_square hinv.sqInh hA' hB' with ⟨b, hb⟩
      rcases BitMatrix.entry_of_square hsqi (i := A) (j := B) (by omega) (by omega)
        with ⟨b', hb'⟩
      refine option_bool_eq_of_true_iff hb hb' ?_
      rw [hpost.inhEntry]
      simp [hBk]
  · intro m c hm
    show mapFind r.server.name2CodeMap m = some c
    rw [hpost.name2CodeMap, mapFind_mapAssign]
    have hne : ¬ n = m := by
      intro e
      subst e
      rw [hn] at hm
      cases hm
    simp only [hne, if_false]
    exact hm
  · intro A hA
    have hne : ¬ s.nTypes = A := by
      have : A < s.nTypes := hA
      omega
    unfold getTypeName
    rw [hpost.code2NameMap, mapFind_mapAssign]
    simp only [hne, if_false]

/-- Witness of C19: registering GrandChild under Child changes no answer about
Root and Child. -/
theorem C19_witness_grandchild :
    (Reachable rootChild ∧ getType rootChild "GrandChild" = none ∧
      addType 3 1 "GrandChild" rootChild =
        .ok { code := 2, server := grandChain, signals := [(2, grandChain)] }) ∧
    ((∀ A B, A < getNumberOfClasses rootChild → B < getNumberOfClasses rootChild →
        isDescendant grandChain A B = isDescendant rootChild A B ∧
        isA_non_recursive grandChain B A = isA_non_recursive rootChild B A) ∧
      (∀ m c, getType rootChild m = some c → getType grandChain m = some c) ∧
      (∀ A, A < getNumberOfClasses rootChild →
        getTypeName grandChain A = getTypeName rootChild A) ∧
      grandChain._atomFactory = rootChild._atomFactory) :=
  ⟨⟨reachable_rootChild, by decide, rfl⟩,
    @C19_frame_of_new_registration rootChild 3 1 "GrandChild"
      { code := 2, server := grandChain, signals := [(2, grandChain)] }
      reachable_rootChild (by decide) rfl⟩

end OpenCog
